import Mathlib

/-!
Shallow embedding of the `basic` runtime schema engine: the type-descriptor
hierarchy of `basic/types.py`, the record (struct) value model of
`basic/struct.py`, and the reflective derivation of `basic/inspection.py`.

Python values handled by the engine are modelled by the inductive `Val`;
descriptors by `Ty` (a shape constructor carrying its default policy, the
`_default` attribute of `BasicType`).  Fallible Python operations (raising
`ValueError` / `TypeError` / `NameError` / `AttributeError`) are modelled as
`Except Err` computations, with `Err` distinguishing the raise sites the
specification names as distinct error kinds.

Modelling notes, applying throughout:
* Python floats are carried as exact rationals; every codec operation on
  floats in this library is an identity or an integer injection, so no
  rounding behaviour is ever exercised.
* Python `str` / `bytes` are `String` / `List Nat` (byte values).
* `datetime.datetime` is modelled at second granularity without a timezone
  (its `str()` omits the `.ffffff` suffix exactly when the microsecond field
  is zero, so second-granularity values print and parse in the modelled
  fixed-width format).
* `dict` preserves insertion order, so it is an association list; Python dict
  equality ignores order, and structural list equality implies it.
* `collections.defaultdict` compares equal to a plain dict with the same
  items (the factory is ignored by `==`), so both are modelled as `Val.vdict`.
-/

/-- Error kinds raised by the engine, one per raise site family.  The mapping
to the concrete Python exceptions: `typeMismatch` = `ValueError`/`TypeError`
from `validate_class` and codec input checks, `arity` = the tuple-length
`ValueError` of `_Tuple._get_parameters`, `unknownField` = `NameError`
(`Invalid argument`) and the schema `KeyError` during decode, `missingField` =
`TypeError` (`Missing argument`), `fieldNotSet` = `AttributeError`
(`Field not set`), `policy` = the `ValueError`s of `default_value`,
`alreadySpecialized` = `ValueError` (`Cannot specialize`), `unresolvedRef` =
the failure of every forwarded `Placeholder` operation before resolution,
`unsupported` = `ValueError` (`Unsupported target/source`); the final four
model CPython call-binding `TypeError`s, used for the reflective
re-construction. -/
inductive Err where
  | typeMismatch
  | arity
  | unknownField
  | missingField
  | fieldNotSet
  | policy
  | alreadySpecialized
  | unresolvedRef
  | unsupported
  | multipleValues (argName : String)
  | tooManyPositional
  | unexpectedKeyword (argName : String)
  | missingArgument (argName : String)
deriving DecidableEq, Repr

/-- The two wire targets, `JSON` and `BSON` keywords of `basic/types.py`. -/
inductive Target where
  | json
  | bson
deriving DecidableEq, Repr

/-- A `datetime.datetime` value at second granularity (no timezone). -/
structure DT where
  year : Nat
  month : Nat
  day : Nat
  hour : Nat
  minute : Nat
  second : Nat
deriving DecidableEq, Repr

/-- Field ranges accepted by the `datetime` constructor (day-of-month is
bounded by 31 rather than by the per-month calendar count; no claim exercises
the finer check). -/
def DT.isValid (d : DT) : Bool :=
  1 ≤ d.year && d.year ≤ 9999 && 1 ≤ d.month && d.month ≤ 12 &&
  1 ≤ d.day && d.day ≤ 31 && d.hour ≤ 23 && d.minute ≤ 59 && d.second ≤ 59

/-- Python runtime values the schema engine operates on.  `none` is Python
`None`; `vstruct` is a `Struct` instance carrying its `_fields` mapping in
insertion order (the `_schema` it was built against is supplied by context);
`vdict` covers both `dict` and `collections.defaultdict`. -/
inductive Val where
  | none
  | vint (n : Int)
  | vbool (b : Bool)
  | vfloat (q : Rat)
  | vstr (s : String)
  | vbytes (bs : List Nat)
  | vdt (d : DT)
  | vpath (s : String)
  | vlist (xs : List Val)
  | vtuple (xs : List Val)
  | vdict (entries : List (Val × Val))
  | vstruct (fields : List (String × Val))

/-- Default policy of a descriptor: the `_default` attribute.  `required`,
`empty`, `missing`, `now` are the four `DefaultValue` keyword sentinels
(`REQUIRED`, `EMPTY`, `MISSING`, `NOW`); `val v` is a concrete default value
(including `None`, the `.none` policy). -/
inductive Dflt where
  | required
  | empty
  | missing
  | now
  | val (v : Val)

/-- Type descriptors: each constructor is one descriptor class of
`basic/types.py` (the leaf singletons `Int`/`Str`/`Bool`/`Float`/`Bytes`/
`Datetime`/`Path`/`Any`, the template types `List`/`Dict`/`DefaultDict`/
`Tuple`, and `StructType`), carrying its `_default` policy and, for template
types, the optional `_parameters`.  A `tdict` parameter pair is
(key type, value type). -/
inductive Ty where
  | tint (d : Dflt)
  | tstr (d : Dflt)
  | tbool (d : Dflt)
  | tfloat (d : Dflt)
  | tbytes (d : Dflt)
  | tdatetime (d : Dflt)
  | tpath (d : Dflt)
  | tany (d : Dflt)
  | tlist (param : Option Ty) (d : Dflt)
  | tdict (params : Option (Ty × Ty)) (d : Dflt)
  | tdefaultdict (params : Option (Ty × Ty)) (d : Dflt)
  | ttuple (params : Option (List Ty)) (d : Dflt)
  | tstruct (schema : List (String × Ty)) (d : Dflt)

/-- Read the `_default` attribute of a descriptor. -/
def dfltOf : Ty → Dflt
  | .tint d | .tstr d | .tbool d | .tfloat d | .tbytes d | .tdatetime d
  | .tpath d | .tany d | .tlist _ d | .tdict _ d | .tdefaultdict _ d
  | .ttuple _ d | .tstruct _ d => d

/-- `BasicType.default`: produce the copy of a descriptor with a replaced
`_default` attribute (all other attributes shared). -/
def withDflt : Ty → Dflt → Ty
  | .tint _, d => .tint d
  | .tstr _, d => .tstr d
  | .tbool _, d => .tbool d
  | .tfloat _, d => .tfloat d
  | .tbytes _, d => .tbytes d
  | .tdatetime _, d => .tdatetime d
  | .tpath _, d => .tpath d
  | .tany _, d => .tany d
  | .tlist p _, d => .tlist p d
  | .tdict p _, d => .tdict p d
  | .tdefaultdict p _, d => .tdefaultdict p d
  | .ttuple p _, d => .ttuple p d
  | .tstruct s _, d => .tstruct s d

/-- Discriminator for the `REQUIRED` sentinel. -/
def Dflt.isRequired : Dflt → Bool
  | .required => true
  | _ => false

/-- Discriminator for the `MISSING` sentinel. -/
def Dflt.isMissing : Dflt → Bool
  | .missing => true
  | _ => false

/-- Discriminator for the `EMPTY` sentinel. -/
def Dflt.isEmpty : Dflt → Bool
  | .empty => true
  | _ => false

/-- `BasicType.has_default`: `self._default is not REQUIRED`. -/
def hasDefault (t : Ty) : Bool := !(dfltOf t).isRequired

/-- Native Python classes used by `isinstance` checks (`validate_class`).
`obj` is `object`; `strct` is the generated `Struct` subclass of a record
descriptor.  `collections.defaultdict` is a subclass of `dict` and is merged
into `dict` here. -/
inductive Klass where
  | int
  | str
  | bool
  | float
  | bytes
  | datetime
  | path
  | obj
  | list
  | dict
  | tuple
  | strct
deriving DecidableEq, Repr

/-- Python `isinstance` on modelled values.  `bool` is a subclass of `int`,
so boolean values are instances of `int`; everything is an instance of
`object`. -/
def isinstance : Val → Klass → Bool
  | _, .obj => true
  | .vint _, .int => true
  | .vbool _, .int => true
  | .vbool _, .bool => true
  | .vstr _, .str => true
  | .vfloat _, .float => true
  | .vbytes _, .bytes => true
  | .vdt _, .datetime => true
  | .vpath _, .path => true
  | .vlist _, .list => true
  | .vtuple _, .tuple => true
  | .vdict _, .dict => true
  | .vstruct _, .strct => true
  | _, _ => false

/-- `validate_class(value, klass)`: return the value unchanged if it is an
instance of the class, raise `ValueError` otherwise. -/
def validate_class (v : Val) (k : Klass) : Except Err Val :=
  if isinstance v k then .ok v else .error .typeMismatch

/-- The `klass` attribute of each descriptor. -/
def tyKlass : Ty → Klass
  | .tint _ => .int
  | .tstr _ => .str
  | .tbool _ => .bool
  | .tfloat _ => .float
  | .tbytes _ => .bytes
  | .tdatetime _ => .datetime
  | .tpath _ => .path
  | .tany _ => .obj
  | .tlist _ _ => .list
  | .tdict _ _ => .dict
  | .tdefaultdict _ _ => .dict
  | .ttuple _ _ => .tuple
  | .tstruct _ _ => .strct

/-- Alphabet of `base64.b85encode` (RFC 1924 order). -/
def b85chars : List Char :=
  ("0123456789ABCDEFGHIJKLMNOPQRSTUVWXYZabcdefghijklmnopqrstuvwxyz" ++
   "!#$%&()*+-;<=>?@^_`\x7b|\x7d~").data

/-- Digit value of a base85 character (the `_b85dec` table); `none` for a
character outside the alphabet. -/
def b85digitOf (c : Char) : Option Nat :=
  b85chars.findIdx? (fun a => a = c)

/-- Big-endian 32-bit word from four bytes. -/
def b85word (b0 b1 b2 b3 : Nat) : Nat :=
  ((b0 * 256 + b1) * 256 + b2) * 256 + b3

/-- The five base85 digits (as characters) of one 32-bit word, most
significant first. -/
def b85wordChars (w : Nat) : List Char :=
  [b85chars.getD (w / 85 ^ 4 % 85) ' ',
   b85chars.getD (w / 85 ^ 3 % 85) ' ',
   b85chars.getD (w / 85 ^ 2 % 85) ' ',
   b85chars.getD (w / 85 % 85) ' ',
   b85chars.getD (w % 85) ' ']

/-- Encode a zero-padded byte string (length a multiple of four) group by
group. -/
def b85encRaw : List Nat → List Char
  | b0 :: b1 :: b2 :: b3 :: rest => b85wordChars (b85word b0 b1 b2 b3) ++ b85encRaw rest
  | _ => []

/-- `base64.b85encode`: pad the input with zero bytes to a multiple of four,
encode each group to five characters, and drop as many trailing characters as
padding bytes were added. -/
def b85encode (bs : List Nat) : List Char :=
  let padding := (4 - bs.length % 4) % 4
  let out := b85encRaw (bs ++ List.replicate padding 0)
  out.take (out.length - padding)

/-- The four big-endian bytes of a 32-bit word. -/
def b85decWordBytes (w : Nat) : List Nat :=
  [w / 2 ^ 24 % 256, w / 2 ^ 16 % 256, w / 2 ^ 8 % 256, w % 256]

/-- Decode a character string whose length is a multiple of five, five
characters at a time; an out-of-alphabet character or a group overflowing 32
bits raises `ValueError` (base85 overflow). -/
def b85decRaw : List Char → Except Err (List Nat)
  | [] => .ok []
  | c0 :: c1 :: c2 :: c3 :: c4 :: rest =>
    match b85digitOf c0, b85digitOf c1, b85digitOf c2, b85digitOf c3, b85digitOf c4 with
    | some d0, some d1, some d2, some d3, some d4 =>
      let acc := (((d0 * 85 + d1) * 85 + d2) * 85 + d3) * 85 + d4
      if acc < 2 ^ 32 then
        match b85decRaw rest with
        | .ok tail => .ok (b85decWordBytes acc ++ tail)
        | .error e => .error e
      else .error .typeMismatch
    | _, _, _, _, _ => .error .typeMismatch
  | _ => .error .typeMismatch

/-- `base64.b85decode`: pad the input with `~` characters to a multiple of
five, decode each group to four bytes, and drop as many trailing bytes as
padding characters were added. -/
def b85decode (cs : List Char) : Except Err (List Nat) :=
  let padding := (5 - cs.length % 5) % 5
  match b85decRaw (cs ++ List.replicate padding '~') with
  | .ok out => .ok (out.take (out.length - padding))
  | .error e => .error e

/-- Decimal digit character for `n % 10`. -/
def digitCh (n : Nat) : Char := Char.ofNat (48 + n % 10)

/-- Zero-padded decimal rendering of `n` to exactly `w` digits (the low `w`
digits of `n`, matching `%0wd` formatting for `n < 10 ^ w`). -/
def padChars : Nat → Nat → List Char
  | 0, _ => []
  | w + 1, n => padChars w (n / 10) ++ [digitCh n]

/-- ASCII decimal digit test. -/
def isDigitCh (c : Char) : Bool := 48 ≤ c.toNat && c.toNat ≤ 57

/-- Value of an ASCII decimal digit. -/
def digitValCh (c : Char) : Nat := c.toNat - 48

/-- Consume exactly `w` decimal digits from the front of a character list,
returning their value and the remaining characters. -/
def parseDigits : Nat → List Char → Option (Nat × List Char)
  | 0, cs => some (0, cs)
  | w + 1, cs =>
    match parseDigits w cs with
    | some (hi, c :: rest) =>
      if isDigitCh c then some (hi * 10 + digitValCh c, rest) else Option.none
    | _ => Option.none

/-- Characters of `str(value)` for a (second-granularity, naive) datetime:
`YYYY-MM-DD HH:MM:SS`, every field zero padded. -/
def dtChars (d : DT) : List Char :=
  padChars 4 d.year ++ '-' :: padChars 2 d.month ++ '-' :: padChars 2 d.day ++
  ' ' :: padChars 2 d.hour ++ ':' :: padChars 2 d.minute ++ ':' :: padChars 2 d.second

/-- `str(value)` of a datetime. -/
def dtStr (d : DT) : String := String.mk (dtChars d)

/-- Expect one specific character at the front of the input. -/
def expectCh (c : Char) : List Char → Option (List Char)
  | x :: rest => if x = c then some rest else Option.none
  | [] => Option.none

/-- Parser core of `datetime.fromisoformat` restricted to the fixed-width
format emitted by `str()` on second-granularity naive datetimes (the Python
parser accepts further variants no claim exercises); enforces the constructor
field ranges. -/
def parseIsoChars (cs : List Char) : Option DT := do
  let (y, cs) ← parseDigits 4 cs
  let cs ← expectCh '-' cs
  let (mo, cs) ← parseDigits 2 cs
  let cs ← expectCh '-' cs
  let (da, cs) ← parseDigits 2 cs
  let cs ← expectCh ' ' cs
  let (h, cs) ← parseDigits 2 cs
  let cs ← expectCh ':' cs
  let (mi, cs) ← parseDigits 2 cs
  let cs ← expectCh ':' cs
  let (s, cs) ← parseDigits 2 cs
  match cs with
  | [] =>
    let d : DT := ⟨y, mo, da, h, mi, s⟩
    if d.isValid then some d else Option.none
  | _ => Option.none

/-- `datetime.datetime.fromisoformat` on a string; a malformed string raises
`ValueError`. -/
def fromisoformat (s : String) : Except Err DT :=
  match parseIsoChars s.data with
  | some d => .ok d
  | Option.none => .error .typeMismatch

/-- Ordered lookup in a schema (Python `dict` indexing `schema[name]`). -/
def lookupTy : List (String × Ty) → String → Option Ty
  | [], _ => Option.none
  | (n, t) :: rest, m => if n = m then some t else lookupTy rest m

/-- Ordered lookup in a field mapping (`_fields.get(name)` / `_fields[name]`). -/
def lookupVal : List (String × Val) → String → Option Val
  | [], _ => Option.none
  | (n, v) :: rest, m => if n = m then some v else lookupVal rest m

/-- Size bound used by the termination measures: a descriptor found in a
schema is smaller than the schema. -/
def sizeOfLookupTy {schema : List (String × Ty)} {n : String} {t : Ty}
    (h : lookupTy schema n = some t) : sizeOf t < sizeOf schema := by
  induction schema with
  | nil => simp [lookupTy] at h
  | cons hd tl ih =>
    obtain ⟨m, ty⟩ := hd
    simp only [lookupTy] at h
    split at h
    · cases h; simp; omega
    · have := ih h
      simp
      omega

/-- The untyped leaf singleton `Any` substituted for absent container
parameters (`_get_parameter` / `_get_parameters`). -/
def anyTy : Ty := .tany .required

/-- Full `to_jsony`/`from_jsony` of the `Any` descriptor: `None` passes
through at the base, any other value passes `validate_class(value, object)`
unchanged.  Encoding and decoding coincide. -/
def anyConvert (v : Val) : Except Err Val :=
  match v with
  | .none => .ok .none
  | v => validate_class v .obj

/-- Map the `Any` codec over the elements of an unparametrized list or
tuple. -/
def anyMapList : List Val → Except Err (List Val)
  | [] => .ok []
  | x :: rest =>
    match anyConvert x with
    | .error e => .error e
    | .ok y =>
      match anyMapList rest with
      | .error e => .error e
      | .ok ys => .ok (y :: ys)

/-- Map the `Any` codec over both components of the items of an
unparametrized dict. -/
def anyMapPairs : List (Val × Val) → Except Err (List (Val × Val))
  | [] => .ok []
  | (k, v) :: rest =>
    match anyConvert k, anyConvert v with
    | .ok k2, .ok v2 =>
      match anyMapPairs rest with
      | .error e => .error e
      | .ok ys => .ok ((k2, v2) :: ys)
    | .error e, _ => .error e
    | _, .error e => .error e

/-- `_Float._to_jsony` and `_Float._from_jsony` (identical): validate against
`(float, int)` — booleans pass as `int` instances — and convert with
`float()`. -/
def floatConvert (v : Val) : Except Err Val :=
  match v with
  | .vfloat q => .ok (.vfloat q)
  | .vint n => .ok (.vfloat (n : Rat))
  | .vbool b => .ok (.vfloat (if b then 1 else 0))
  | _ => .error .typeMismatch

/-- `_Bytes._to_jsony`: base85 text for the JSON target (`b85encode` raises
`TypeError` on non-bytes input), validated raw bytes for BSON. -/
def bytesToJsony (tgt : Target) (v : Val) : Except Err Val :=
  match tgt, v with
  | .json, .vbytes bs => .ok (.vstr (String.mk (b85encode bs)))
  | .json, _ => .error .typeMismatch
  | .bson, v => validate_class v .bytes

/-- `_Bytes._from_jsony`: `b85decode` of the string for the JSON source,
validated raw bytes for BSON. -/
def bytesFromJsony (src : Target) (v : Val) : Except Err Val :=
  match src, v with
  | .json, .vstr s =>
    match b85decode s.data with
    | .ok bs => .ok (.vbytes bs)
    | .error e => .error e
  | .json, _ => .error .typeMismatch
  | .bson, v => validate_class v .bytes

/-- `_Datetime._to_jsony`: `str(value)` for JSON, pass-through for BSON.
`str()` of a non-datetime value produces an unrelated repr string that can
never parse back; it is modelled as the eventual mismatch failure. -/
def datetimeToJsony (tgt : Target) (v : Val) : Except Err Val :=
  match tgt, v with
  | .json, .vdt d => .ok (.vstr (dtStr d))
  | .json, _ => .error .typeMismatch
  | .bson, v => .ok v

/-- `_Datetime._from_jsony`: `fromisoformat` for JSON (a non-string raises
`TypeError`), pass-through for BSON. -/
def datetimeFromJsony (src : Target) (v : Val) : Except Err Val :=
  match src, v with
  | .json, .vstr s =>
    match fromisoformat s with
    | .ok d => .ok (.vdt d)
    | .error e => .error e
  | .json, _ => .error .typeMismatch
  | .bson, v => .ok v

/-- `_Path._to_jsony`: `str(value)`.  Path values carry their canonical
string form, which `str()` returns. -/
def pathToJsony (v : Val) : Except Err Val :=
  match v with
  | .vpath s => .ok (.vstr s)
  | _ => .error .typeMismatch

/-- `_Path._from_jsony`: `pathlib.Path(jsony)`.  On the canonical strings
produced by `str()` of a path the constructor is the identity
(`Path(str(p)) == p`); a non-string, non-path argument raises `TypeError`. -/
def pathFromJsony (v : Val) : Except Err Val :=
  match v with
  | .vstr s => .ok (.vpath s)
  | .vpath s => .ok (.vpath s)
  | _ => .error .typeMismatch

/-- Elements of a value usable with `len()` and iteration where `_Tuple`
expects a sequence (tuples and lists both qualify). -/
def tupleElems (v : Val) : Option (List Val) :=
  match v with
  | .vtuple xs => some xs
  | .vlist xs => some xs
  | _ => Option.none

mutual
/-- `BasicType.to_jsony`: `None` passes through unchanged; otherwise dispatch
to the descriptor-specific `_to_jsony` — identity-with-validation for the
builtin leaves, per-target conversion for bytes and datetimes, element-wise
recursion for containers (unparametrized containers treat every element as
`Any`), and the schema-directed field map of `StructType._to_jsony`, which
iterates the present fields of the record and emits a string-keyed dict. -/
def toJsony (t : Ty) (tgt : Target) (v : Val) : Except Err Val :=
  match t, v with
  | _, .none => .ok .none
  | .tint _, v => validate_class v .int
  | .tstr _, v => validate_class v .str
  | .tbool _, v => validate_class v .bool
  | .tfloat _, v => floatConvert v
  | .tbytes _, v => bytesToJsony tgt v
  | .tdatetime _, v => datetimeToJsony tgt v
  | .tpath _, v => pathToJsony v
  | .tany _, v => validate_class v .obj
  | .tlist (some pt) _, .vlist xs =>
    match listToJsony pt tgt xs with
    | .ok ys => .ok (.vlist ys)
    | .error e => .error e
  | .tlist Option.none _, .vlist xs =>
    match anyMapList xs with
    | .ok ys => .ok (.vlist ys)
    | .error e => .error e
  | .tlist _ _, _ => .error .typeMismatch
  | .tdict (some (kt, vt)) _, .vdict es =>
    match pairsToJsony kt vt tgt es with
    | .ok es2 => .ok (.vdict es2)
    | .error e => .error e
  | .tdict Option.none _, .vdict es =>
    match anyMapPairs es with
    | .ok es2 => .ok (.vdict es2)
    | .error e => .error e
  | .tdict _ _, _ => .error .typeMismatch
  | .tdefaultdict (some (kt, vt)) _, .vdict es =>
    match pairsToJsony kt vt tgt es with
    | .ok es2 => .ok (.vdict es2)
    | .error e => .error e
  | .tdefaultdict Option.none _, .vdict es =>
    match anyMapPairs es with
    | .ok es2 => .ok (.vdict es2)
    | .error e => .error e
  | .tdefaultdict _ _, _ => .error .typeMismatch
  | .ttuple (some ps) _, v =>
    match tupleElems v with
    | some xs =>
      if xs.length = ps.length then
        match tupleToJsony ps tgt xs with
        | .ok ys => .ok (.vlist ys)
        | .error e => .error e
      else .error .arity
    | Option.none => .error .typeMismatch
  | .ttuple Option.none _, v =>
    match tupleElems v with
    | some xs =>
      match anyMapList xs with
      | .ok ys => .ok (.vlist ys)
      | .error e => .error e
    | Option.none => .error .typeMismatch
  | .tstruct schema _, .vstruct fields =>
    match fieldsToJsony schema tgt fields with
    | .ok es => .ok (.vdict es)
    | .error e => .error e
  | .tstruct _ _, _ => .error .typeMismatch
termination_by (sizeOf t, 1, 0)
decreasing_by
  all_goals simp [Prod.lex_def]
  all_goals omega

/-- Element-wise `to_jsony` of `_List._to_jsony`. -/
def listToJsony (pt : Ty) (tgt : Target) (xs : List Val) : Except Err (List Val) :=
  match xs with
  | [] => .ok []
  | x :: rest =>
    match toJsony pt tgt x with
    | .error e => .error e
    | .ok y =>
      match listToJsony pt tgt rest with
      | .error e => .error e
      | .ok ys => .ok (y :: ys)
termination_by (sizeOf pt, 2, xs.length)
decreasing_by
  all_goals simp [Prod.lex_def]
  all_goals omega

/-- Item-wise `to_jsony` of `_Dict._to_jsony` (key and value each with their
parameter descriptor). -/
def pairsToJsony (kt vt : Ty) (tgt : Target) (es : List (Val × Val)) :
    Except Err (List (Val × Val)) :=
  match es with
  | [] => .ok []
  | (k, v) :: rest =>
    match toJsony kt tgt k, toJsony vt tgt v with
    | .ok k2, .ok v2 =>
      match pairsToJsony kt vt tgt rest with
      | .error e => .error e
      | .ok ys => .ok ((k2, v2) :: ys)
    | .error e, _ => .error e
    | _, .error e => .error e
termination_by (sizeOf kt + sizeOf vt + 1, 2, es.length)
decreasing_by
  all_goals simp [Prod.lex_def]
  all_goals omega

/-- Position-wise `to_jsony` of `_Tuple._to_jsony` (parameters zipped with
elements; the arity check has already passed). -/
def tupleToJsony (ps : List Ty) (tgt : Target) (xs : List Val) : Except Err (List Val) :=
  match ps, xs with
  | p :: prest, x :: xrest =>
    match toJsony p tgt x with
    | .error e => .error e
    | .ok y =>
      match tupleToJsony prest tgt xrest with
      | .error e => .error e
      | .ok ys => .ok (y :: ys)
  | _, _ => .ok []
termination_by (sizeOf ps, 2, 0)
decreasing_by
  all_goals simp [Prod.lex_def]
  all_goals omega

/-- Field-wise encoding of `struct._to_jsony`: iterate the record's present
fields in order, encode each with its schema descriptor
(`schema[name].to_jsony(value, target)`), and emit string keys. -/
def fieldsToJsony (schema : List (String × Ty)) (tgt : Target)
    (fields : List (String × Val)) : Except Err (List (Val × Val)) :=
  match fields with
  | [] => .ok []
  | (n, fv) :: rest =>
    match hl : lookupTy schema n with
    | Option.none => .error .unknownField
    | some ty =>
      match toJsony ty tgt fv with
      | .error e => .error e
      | .ok ev =>
        match fieldsToJsony schema tgt rest with
        | .error e => .error e
        | .ok es => .ok ((.vstr n, ev) :: es)
termination_by (sizeOf schema, 2, fields.length)
decreasing_by
  · simp [Prod.lex_def]
    have := sizeOfLookupTy hl
    omega
  · simp [Prod.lex_def]
end

/-- First loop of `Struct.__init__`: check each keyword argument against the
set of still-unfilled schema names (`remaining`), raising `NameError`
(`Invalid argument`) for a name outside the schema, and record the supplied
fields in order.  Returns the fields together with the names left over. -/
def checkKwargs : List String → List (String × Val) →
    Except Err (List (String × Val) × List String)
  | rem, [] => .ok ([], rem)
  | rem, (n, v) :: rest =>
    if rem.contains n then
      match checkKwargs (rem.erase n) rest with
      | .ok (fs, rem2) => .ok ((n, v) :: fs, rem2)
      | .error e => .error e
    else .error .unknownField

/-- Resolution of the `NOW` sentinel by `default_value`: `_Datetime`
overrides it to `datetime.now()` (the ambient clock); on any other
descriptor the base class rejects the sentinel (`ValueError`). -/
def nowDefault (clock : DT) : Ty → Except Err Val
  | .tdatetime _ => .ok (.vdt clock)
  | _ => .error .policy

mutual
/-- `BasicType.default_value` (with the `_Datetime` override): `REQUIRED` and
`MISSING` raise `ValueError`, `EMPTY` constructs a fresh empty native value
with `self.new()`, `NOW` yields the current clock reading for datetimes and
is an invalid default elsewhere, and a concrete default is returned as is.
The ambient clock is passed explicitly since `datetime.now()` is read at
construction time. -/
def default_value (clock : DT) (t : Ty) : Except Err Val :=
  match dfltOf t with
  | .required => .error .policy
  | .empty => tyNew clock t
  | .missing => .error .policy
  | .now => nowDefault clock t
  | .val dv => .ok dv
termination_by (sizeOf t, 3, 0)
decreasing_by
  all_goals simp [Prod.lex_def]

/-- `BasicType.new()` with no arguments: call the native class constructor.
`int()`, `str()`, `bool()`, `float()`, `bytes()`, `list()`, `dict()`,
`defaultdict(factory)`, `tuple()` build the zero/empty native values;
`pathlib.Path()` is the path `.`; `datetime()` with no arguments and
`_Any.new()` (whose single `value` parameter is then missing) raise
`TypeError`; `StructType.new()` invokes the record factory, that is
`Struct.__init__` with no fields supplied. -/
def tyNew (clock : DT) (t : Ty) : Except Err Val :=
  match t with
  | .tint _ => .ok (.vint 0)
  | .tstr _ => .ok (.vstr "")
  | .tbool _ => .ok (.vbool false)
  | .tfloat _ => .ok (.vfloat 0)
  | .tbytes _ => .ok (.vbytes [])
  | .tdatetime _ => .error .typeMismatch
  | .tpath _ => .ok (.vpath ".")
  | .tany _ => .error .typeMismatch
  | .tlist _ _ => .ok (.vlist [])
  | .tdict _ _ => .ok (.vdict [])
  | .tdefaultdict _ _ => .ok (.vdict [])
  | .ttuple _ _ => .ok (.vtuple [])
  | .tstruct schema _ =>
    match structNew clock schema [] with
    | .ok fs => .ok (.vstruct fs)
    | .error e => .error e
termination_by (sizeOf t, 2, 0)
decreasing_by
  all_goals simp [Prod.lex_def]
  all_goals omega

/-- `Struct.__init__`: validate the supplied fields against the schema, then
fill every name not supplied — `REQUIRED` raises `TypeError`
(`Missing argument`), `MISSING` leaves the field unset, anything else stores
`default_value()`.  Python iterates the `remaining` set in unspecified order;
the model fills in schema order, a deterministic refinement (every
claim-relevant observation is insensitive to this order). -/
def structNew (clock : DT) (schema : List (String × Ty)) (kwargs : List (String × Val)) :
    Except Err (List (String × Val)) :=
  match checkKwargs (schema.map Prod.fst) kwargs with
  | .error e => .error e
  | .ok (fs, rem) =>
    match fillDefaults clock schema rem with
    | .error e => .error e
    | .ok ds => .ok (fs ++ ds)
termination_by (sizeOf schema, 5, 0)
decreasing_by
  all_goals simp [Prod.lex_def]

/-- Second loop of `Struct.__init__` (see `structNew`): walk the schema and
produce the default-filled fields for the names in `rem`. -/
def fillDefaults (clock : DT) (schema : List (String × Ty)) (rem : List String) :
    Except Err (List (String × Val)) :=
  match schema with
  | [] => .ok []
  | (n, ty) :: rest =>
    if rem.contains n then
      match dfltOf ty with
      | .required => .error .missingField
      | .missing => fillDefaults clock rest rem
      | _ =>
        match default_value clock ty with
        | .error e => .error e
        | .ok dv =>
          match fillDefaults clock rest rem with
          | .error e => .error e
          | .ok tail => .ok ((n, dv) :: tail)
    else fillDefaults clock rest rem
termination_by (sizeOf schema, 4, 0)
decreasing_by
  all_goals simp [Prod.lex_def]
  all_goals omega
end

mutual
/-- `BasicType.from_jsony`: `None` passes through; otherwise the
descriptor-specific `_from_jsony` — validation for builtin leaves, per-source
conversion for bytes/datetimes/paths, element-wise recursion for containers,
and for records `struct._from_jsony`: decode each input key's value with its
schema descriptor (an unknown key raises `KeyError` at `schema[name]`) and
hand the results to the record factory, that is `Struct.__init__`. -/
def fromJsony (clock : DT) (t : Ty) (src : Target) (v : Val) : Except Err Val :=
  match t, v with
  | _, .none => .ok .none
  | .tint _, v => validate_class v .int
  | .tstr _, v => validate_class v .str
  | .tbool _, v => validate_class v .bool
  | .tfloat _, v => floatConvert v
  | .tbytes _, v => bytesFromJsony src v
  | .tdatetime _, v => datetimeFromJsony src v
  | .tpath _, v => pathFromJsony v
  | .tany _, v => validate_class v .obj
  | .tlist (some pt) _, .vlist xs =>
    match listFromJsony clock pt src xs with
    | .ok ys => .ok (.vlist ys)
    | .error e => .error e
  | .tlist Option.none _, .vlist xs =>
    match anyMapList xs with
    | .ok ys => .ok (.vlist ys)
    | .error e => .error e
  | .tlist _ _, _ => .error .typeMismatch
  | .tdict (some (kt, vt)) _, .vdict es =>
    match pairsFromJsony clock kt vt src es with
    | .ok es2 => .ok (.vdict es2)
    | .error e => .error e
  | .tdict Option.none _, .vdict es =>
    match anyMapPairs es with
    | .ok es2 => .ok (.vdict es2)
    | .error e => .error e
  | .tdict _ _, _ => .error .typeMismatch
  | .tdefaultdict (some (kt, vt)) _, .vdict es =>
    match pairsFromJsony clock kt vt src es with
    | .ok es2 => .ok (.vdict es2)
    | .error e => .error e
  | .tdefaultdict Option.none _, .vdict es =>
    match anyMapPairs es with
    | .ok es2 => .ok (.vdict es2)
    | .error e => .error e
  | .tdefaultdict _ _, _ => .error .typeMismatch
  | .ttuple (some ps) _, v =>
    match tupleElems v with
    | some xs =>
      if xs.length = ps.length then
        match tupleFromJsony clock ps src xs with
        | .ok ys => .ok (.vtuple ys)
        | .error e => .error e
      else .error .arity
    | Option.none => .error .typeMismatch
  | .ttuple Option.none _, v =>
    match tupleElems v with
    | some xs =>
      match anyMapList xs with
      | .ok ys => .ok (.vtuple ys)
      | .error e => .error e
    | Option.none => .error .typeMismatch
  | .tstruct schema _, .vdict es =>
    match fieldsFromJsony clock schema src es with
    | .ok decoded =>
      match structNew clock schema decoded with
      | .ok fs => .ok (.vstruct fs)
      | .error e => .error e
    | .error e => .error e
  | .tstruct _ _, _ => .error .typeMismatch
termination_by (sizeOf t, 1, 0)
decreasing_by
  all_goals simp [Prod.lex_def]
  all_goals omega

/-- Element-wise `from_jsony` of `_List._from_jsony`. -/
def listFromJsony (clock : DT) (pt : Ty) (src : Target) (xs : List Val) :
    Except Err (List Val) :=
  match xs with
  | [] => .ok []
  | x :: rest =>
    match fromJsony clock pt src x with
    | .error e => .error e
    | .ok y =>
      match listFromJsony clock pt src rest with
      | .error e => .error e
      | .ok ys => .ok (y :: ys)
termination_by (sizeOf pt, 2, xs.length)
decreasing_by
  all_goals simp [Prod.lex_def]
  all_goals omega

/-- Item-wise `from_jsony` of `_Dict._from_jsony`. -/
def pairsFromJsony (clock : DT) (kt vt : Ty) (src : Target) (es : List (Val × Val)) :
    Except Err (List (Val × Val)) :=
  match es with
  | [] => .ok []
  | (k, v) :: rest =>
    match fromJsony clock kt src k, fromJsony clock vt src v with
    | .ok k2, .ok v2 =>
      match pairsFromJsony clock kt vt src rest with
      | .error e => .error e
      | .ok ys => .ok ((k2, v2) :: ys)
    | .error e, _ => .error e
    | _, .error e => .error e
termination_by (sizeOf kt + sizeOf vt + 1, 2, es.length)
decreasing_by
  all_goals simp [Prod.lex_def]
  all_goals omega

/-- Position-wise `from_jsony` of `_Tuple._from_jsony`. -/
def tupleFromJsony (clock : DT) (ps : List Ty) (src : Target) (xs : List Val) :
    Except Err (List Val) :=
  match ps, xs with
  | p :: prest, x :: xrest =>
    match fromJsony clock p src x with
    | .error e => .error e
    | .ok y =>
      match tupleFromJsony clock prest src xrest with
      | .error e => .error e
      | .ok ys => .ok (y :: ys)
  | _, _ => .ok []
termination_by (sizeOf ps, 2, 0)
decreasing_by
  all_goals simp [Prod.lex_def]
  all_goals omega

/-- Key-directed decoding of `struct._from_jsony`: for each input item
`schema[name].from_jsony(value, source)`; a non-string or unknown key is the
`KeyError` of the schema lookup. -/
def fieldsFromJsony (clock : DT) (schema : List (String × Ty)) (src : Target)
    (es : List (Val × Val)) : Except Err (List (String × Val)) :=
  match es with
  | [] => .ok []
  | (.vstr n, ev) :: rest =>
    match hl : lookupTy schema n with
    | Option.none => .error .unknownField
    | some ty =>
      match fromJsony clock ty src ev with
      | .error e => .error e
      | .ok dv =>
        match fieldsFromJsony clock schema src rest with
        | .error e => .error e
        | .ok ds => .ok ((n, dv) :: ds)
  | _ => .error .unknownField
termination_by (sizeOf schema, 2, es.length)
decreasing_by
  · simp [Prod.lex_def]
    have := sizeOfLookupTy hl
    omega
  · simp [Prod.lex_def]
end

mutual
/-- `BasicType.apply`: `None` is handed to the transform together with the
descriptor; otherwise the descriptor-specific `_apply` walks composites
bottom-up, rebuilding each from the transformed children before handing the
rebuilt value to the transform (leaves pass the value directly).  Elements of
unparametrized containers are paired with the `Any` singleton.  Struct
`_apply` rebuilds via the record factory (`Struct.__init__`), which needs the
ambient clock for computed defaults. -/
def applyV (clock : DT) (t : Ty) (f : Ty → Val → Val) (v : Val) : Except Err Val :=
  match t, v with
  | t, .none => .ok (f t .none)
  | .tint d, v => .ok (f (.tint d) v)
  | .tstr d, v => .ok (f (.tstr d) v)
  | .tbool d, v => .ok (f (.tbool d) v)
  | .tfloat d, v => .ok (f (.tfloat d) v)
  | .tbytes d, v => .ok (f (.tbytes d) v)
  | .tdatetime d, v => .ok (f (.tdatetime d) v)
  | .tpath d, v => .ok (f (.tpath d) v)
  | .tany d, v => .ok (f (.tany d) v)
  | .tlist (some pt) d, .vlist xs =>
    match applyList clock pt f xs with
    | .ok ys => .ok (f (.tlist (some pt) d) (.vlist ys))
    | .error e => .error e
  | .tlist Option.none d, .vlist xs =>
    .ok (f (.tlist Option.none d) (.vlist (xs.map (f anyTy))))
  | .tlist _ _, _ => .error .typeMismatch
  | .tdict (some (kt, vt)) d, .vdict es =>
    match applyPairs clock kt vt f es with
    | .ok es2 => .ok (f (.tdict (some (kt, vt)) d) (.vdict es2))
    | .error e => .error e
  | .tdict Option.none d, .vdict es =>
    .ok (f (.tdict Option.none d) (.vdict (es.map (fun p => (f anyTy p.1, f anyTy p.2)))))
  | .tdict _ _, _ => .error .typeMismatch
  | .tdefaultdict (some (kt, vt)) d, .vdict es =>
    match applyPairs clock kt vt f es with
    | .ok es2 => .ok (f (.tdefaultdict (some (kt, vt)) d) (.vdict es2))
    | .error e => .error e
  | .tdefaultdict Option.none d, .vdict es =>
    .ok (f (.tdefaultdict Option.none d) (.vdict (es.map (fun p => (f anyTy p.1, f anyTy p.2)))))
  | .tdefaultdict _ _, _ => .error .typeMismatch
  | .ttuple (some ps) d, v =>
    match tupleElems v with
    | some xs =>
      if xs.length = ps.length then
        match applyTuple clock ps f xs with
        | .ok ys => .ok (f (.ttuple (some ps) d) (.vtuple ys))
        | .error e => .error e
      else .error .arity
    | Option.none => .error .typeMismatch
  | .ttuple Option.none d, v =>
    match tupleElems v with
    | some xs => .ok (f (.ttuple Option.none d) (.vtuple (xs.map (f anyTy))))
    | Option.none => .error .typeMismatch
  | .tstruct schema d, .vstruct fields =>
    match applyFields clock schema f fields with
    | .ok kw =>
      match structNew clock schema kw with
      | .ok rebuilt => .ok (f (.tstruct schema d) (.vstruct rebuilt))
      | .error e => .error e
    | .error e => .error e
  | .tstruct _ _, _ => .error .typeMismatch
termination_by (sizeOf t, 1, 0)
decreasing_by
  all_goals simp [Prod.lex_def]
  all_goals omega

/-- Element-wise `apply` of `_List._apply`. -/
def applyList (clock : DT) (pt : Ty) (f : Ty → Val → Val) (xs : List Val) :
    Except Err (List Val) :=
  match xs with
  | [] => .ok []
  | x :: rest =>
    match applyV clock pt f x with
    | .error e => .error e
    | .ok y =>
      match applyList clock pt f rest with
      | .error e => .error e
      | .ok ys => .ok (y :: ys)
termination_by (sizeOf pt, 2, xs.length)
decreasing_by
  all_goals simp [Prod.lex_def]
  all_goals omega

/-- Item-wise `apply` of `_Dict._apply`. -/
def applyPairs (clock : DT) (kt vt : Ty) (f : Ty → Val → Val) (es : List (Val × Val)) :
    Except Err (List (Val × Val)) :=
  match es with
  | [] => .ok []
  | (k, v) :: rest =>
    match applyV clock kt f k, applyV clock vt f v with
    | .ok k2, .ok v2 =>
      match applyPairs clock kt vt f rest with
      | .error e => .error e
      | .ok ys => .ok ((k2, v2) :: ys)
    | .error e, _ => .error e
    | _, .error e => .error e
termination_by (sizeOf kt + sizeOf vt + 1, 2, es.length)
decreasing_by
  all_goals simp [Prod.lex_def]
  all_goals omega

/-- Position-wise `apply` of `_Tuple._apply`. -/
def applyTuple (clock : DT) (ps : List Ty) (f : Ty → Val → Val) (xs : List Val) :
    Except Err (List Val) :=
  match ps, xs with
  | p :: prest, x :: xrest =>
    match applyV clock p f x with
    | .error e => .error e
    | .ok y =>
      match applyTuple clock prest f xrest with
      | .error e => .error e
      | .ok ys => .ok (y :: ys)
  | _, _ => .ok []
termination_by (sizeOf ps, 2, 0)
decreasing_by
  all_goals simp [Prod.lex_def]
  all_goals omega

/-- Field-wise `apply` of `StructType._apply`: each present field with its
schema descriptor. -/
def applyFields (clock : DT) (schema : List (String × Ty)) (f : Ty → Val → Val)
    (fields : List (String × Val)) : Except Err (List (String × Val)) :=
  match fields with
  | [] => .ok []
  | (n, fv) :: rest =>
    match hl : lookupTy schema n with
    | Option.none => .error .unknownField
    | some ty =>
      match applyV clock ty f fv with
      | .error e => .error e
      | .ok y =>
        match applyFields clock schema f rest with
        | .error e => .error e
        | .ok ys => .ok ((n, y) :: ys)
termination_by (sizeOf schema, 2, fields.length)
decreasing_by
  · simp [Prod.lex_def]
    have := sizeOfLookupTy hl
    omega
  · simp [Prod.lex_def]
end

/-- `Struct.__getattr__` on a schema name: the field value, or
`AttributeError` (`Field not set`) when absent; a non-schema name is
`AttributeError` (`has no attribute`).  The internal underscore namespace is
bookkeeping outside the field model. -/
def structGet (schema : List (String × Ty)) (fields : List (String × Val))
    (n : String) : Except Err Val :=
  match lookupTy schema n with
  | some _ =>
    match lookupVal fields n with
    | some v => .ok v
    | Option.none => .error .fieldNotSet
  | Option.none => .error .unknownField

/-- Assignment into an insertion-ordered field mapping: overwrite in place or
append. -/
def setField : List (String × Val) → String → Val → List (String × Val)
  | [], n, v => [(n, v)]
  | (m, w) :: rest, n, v =>
    if m = n then (m, v) :: rest else (m, w) :: setField rest n v

/-- `Struct.__setattr__` on a schema name stores the value; a non-underscore
name outside the schema is `AttributeError`. -/
def structSet (schema : List (String × Ty)) (fields : List (String × Val))
    (n : String) (v : Val) : Except Err (List (String × Val)) :=
  match lookupTy schema n with
  | some _ => .ok (setField fields n v)
  | Option.none => .error .unknownField

/-- Deletion from an insertion-ordered field mapping. -/
def removeField : List (String × Val) → String → List (String × Val)
  | [], _ => []
  | (m, w) :: rest, n =>
    if m = n then rest else (m, w) :: removeField rest n

/-- `Struct.__delattr__` on a schema name removes the field (regardless of
its descriptor's default policy), raising `AttributeError` (`Field not set`)
when it is absent; a non-schema name is `AttributeError`. -/
def structDel (schema : List (String × Ty)) (fields : List (String × Val))
    (n : String) : Except Err (List (String × Val)) :=
  match lookupTy schema n with
  | some _ =>
    match lookupVal fields n with
    | some _ => .ok (removeField fields n)
    | Option.none => .error .fieldNotSet
  | Option.none => .error .unknownField

/-- `Struct._cmp_repr`: the ordered tuple, in schema order, of
(field name, value-or-`MISSING`); `Option.none` models the `MISSING`
marker.  `__eq__` and `__hash__` are computed from this tuple alone. -/
def cmpRepr (schema : List (String × Ty)) (fields : List (String × Val)) :
    List (String × Option Val) :=
  schema.map (fun p => (p.1, lookupVal fields p.1))

/-- Record-value invariant claimed by the specification: a field may be
absent from the mapping only when its descriptor's policy is `MISSING` or the
descriptor has some other default (that is, its policy is not `REQUIRED`). -/
def invariantB (schema : List (String × Ty)) (fields : List (String × Val)) : Bool :=
  schema.all (fun p => (lookupVal fields p.1).isSome || !(dfltOf p.2).isRequired)

/-- Pairwise distinctness of a name list (Python dict keys are unique). -/
def namesNodup : List String → Bool
  | [] => true
  | n :: rest => !rest.contains n && namesNodup rest

mutual
/-- Validity of a value under a descriptor, in the sense of the native-shape
contract: `None` is always admissible (handled uniformly at the base), a
non-null value must be an instance of the descriptor's `klass` (bytes
restricted to byte values, datetimes to constructible field ranges),
container elements must be valid under the element descriptors, a
parametrized tuple must have exactly the parameter count, and a record's
fields must name schema entries (uniquely) with valid values.  The `strict`
flag selects the record-absence discipline: strict validity lets a field be
absent only under the `MISSING` policy (every other schema field must be
present), while non-strict validity is the specification's invariant — a
field may be absent whenever its policy is `MISSING` or it has some other
default. -/
def validWith (strict : Bool) (t : Ty) (v : Val) : Bool :=
  match t, v with
  | _, .none => true
  | .tint _, v => isinstance v .int
  | .tstr _, v => isinstance v .str
  | .tbool _, v => isinstance v .bool
  | .tfloat _, v => isinstance v .float
  | .tbytes _, .vbytes bs => bs.all (fun b => b < 256)
  | .tbytes _, _ => false
  | .tdatetime _, .vdt d => d.isValid
  | .tdatetime _, _ => false
  | .tpath _, v => isinstance v .path
  | .tany _, _ => true
  | .tlist (some pt) _, .vlist xs => validList strict pt xs
  | .tlist Option.none _, .vlist _ => true
  | .tlist _ _, _ => false
  | .tdict (some (kt, vt)) _, .vdict es => validPairs strict kt vt es
  | .tdict Option.none _, .vdict _ => true
  | .tdict _ _, _ => false
  | .tdefaultdict (some (kt, vt)) _, .vdict es => validPairs strict kt vt es
  | .tdefaultdict Option.none _, .vdict _ => true
  | .tdefaultdict _ _, _ => false
  | .ttuple (some ps) _, .vtuple xs => xs.length = ps.length && validTuple strict ps xs
  | .ttuple (some _) _, _ => false
  | .ttuple Option.none _, .vtuple _ => true
  | .ttuple Option.none _, _ => false
  | .tstruct schema _, .vstruct fields =>
    namesNodup (schema.map Prod.fst) && namesNodup (fields.map Prod.fst) &&
    validFields strict schema fields &&
    schema.all (fun p =>
      (fields.map Prod.fst).contains p.1 ||
      (if strict then (dfltOf p.2).isMissing else !(dfltOf p.2).isRequired))
  | .tstruct _ _, _ => false
termination_by (sizeOf t, 1, 0)
decreasing_by
  all_goals simp [Prod.lex_def]
  all_goals omega

/-- Element-wise validity for lists. -/
def validList (strict : Bool) (pt : Ty) (xs : List Val) : Bool :=
  match xs with
  | [] => true
  | x :: rest => validWith strict pt x && validList strict pt rest
termination_by (sizeOf pt, 2, xs.length)
decreasing_by
  all_goals simp [Prod.lex_def]
  all_goals omega

/-- Item-wise validity for dicts. -/
def validPairs (strict : Bool) (kt vt : Ty) (es : List (Val × Val)) : Bool :=
  match es with
  | [] => true
  | (k, v) :: rest =>
    validWith strict kt k && validWith strict vt v && validPairs strict kt vt rest
termination_by (sizeOf kt + sizeOf vt + 1, 2, es.length)
decreasing_by
  all_goals simp [Prod.lex_def]
  all_goals omega

/-- Position-wise validity for parametrized tuples. -/
def validTuple (strict : Bool) (ps : List Ty) (xs : List Val) : Bool :=
  match ps, xs with
  | p :: prest, x :: xrest => validWith strict p x && validTuple strict prest xrest
  | [], [] => true
  | _, _ => false
termination_by (sizeOf ps, 2, 0)
decreasing_by
  all_goals simp [Prod.lex_def]
  all_goals omega

/-- Field-wise validity for records: every present field names a schema entry
and is valid under its descriptor. -/
def validFields (strict : Bool) (schema : List (String × Ty))
    (fields : List (String × Val)) : Bool :=
  match fields with
  | [] => true
  | (n, fv) :: rest =>
    match hl : lookupTy schema n with
    | Option.none => false
    | some ty => validWith strict ty fv && validFields strict schema rest
termination_by (sizeOf schema, 2, fields.length)
decreasing_by
  · simp [Prod.lex_def]
    have := sizeOfLookupTy hl
    omega
  · simp [Prod.lex_def]
end

/-- Strict validity: record fields absent only under the `MISSING` policy. -/
def validStrict (t : Ty) (v : Val) : Bool := validWith true t v

/-- Specification validity (record invariant b): record fields absent only
when the policy is `MISSING` or the descriptor has some other default. -/
def validB (t : Ty) (v : Val) : Bool := validWith false t v

/-- State of a `Placeholder` forward-reference descriptor: the optional
resolved target (`_type`), the declared debug name (`_name`), and the
placeholder's own `_default` attribute (initially `REQUIRED`). -/
structure Ph where
  resolvedTy : Option Ty
  debugName : String
  phDflt : Dflt

/-- `Placeholder(name)`: unresolved, with `klass=None` and the inherited
`REQUIRED` default. -/
def mkPlaceholder (n : String) : Ph := ⟨Option.none, n, .required⟩

/-- `Placeholder.resolve`: the one-time bind (the source `assert`s the
placeholder is still unresolved; the model is only applied from that
state). -/
def phResolve (p : Ph) (t : Ty) : Ph := ⟨some t, p.debugName, p.phDflt⟩

/-- Forwarded `klass` property.  While unresolved, the forwarding wrapper's
`super(self, Placeholder)` call raises (`TypeError` from the reversed
`super()` arguments — the failure mode the specification names
`UnresolvedReferenceError`); once resolved it reads the target's `klass`
through `self._type.default(self._default)`. -/
def phKlass (p : Ph) : Except Err Klass :=
  match p.resolvedTy with
  | Option.none => .error .unresolvedRef
  | some ty => .ok (tyKlass (withDflt ty p.phDflt))

/-- `to_jsony` on a placeholder: the `None` pass-through is inherited from
`BasicType` and succeeds even while unresolved; the forwarded `_to_jsony`
fails while unresolved and otherwise runs the resolved descriptor with the
placeholder's own default attribute substituted. -/
def phToJsony (p : Ph) (tgt : Target) (v : Val) : Except Err Val :=
  match v with
  | .none => .ok .none
  | v =>
    match p.resolvedTy with
    | Option.none => .error .unresolvedRef
    | some ty => toJsony (withDflt ty p.phDflt) tgt v

/-- `from_jsony` on a placeholder (see `phToJsony`). -/
def phFromJsony (clock : DT) (p : Ph) (src : Target) (v : Val) : Except Err Val :=
  match v with
  | .none => .ok .none
  | v =>
    match p.resolvedTy with
    | Option.none => .error .unresolvedRef
    | some ty => fromJsony clock (withDflt ty p.phDflt) src v

/-- Forwarded `_apply` of a placeholder, for non-null values (the null branch
of the public `apply` invokes the transform on the placeholder object itself
and stays outside the `Ty`-indexed model). -/
def phApply (clock : DT) (p : Ph) (f : Ty → Val → Val) (v : Val) : Except Err Val :=
  match p.resolvedTy with
  | Option.none => .error .unresolvedRef
  | some ty => applyV clock (withDflt ty p.phDflt) f v

/-- Forwarded `default_value` of a placeholder: note the resolved target is
consulted with the placeholder's OWN default attribute
(`self._type.default(self._default)`), not the target's. -/
def phDefaultValue (clock : DT) (p : Ph) : Except Err Val :=
  match p.resolvedTy with
  | Option.none => .error .unresolvedRef
  | some ty => default_value clock (withDflt ty p.phDflt)

/-- Forwarded `new()` (zero-argument) of a placeholder. -/
def phNew (clock : DT) (p : Ph) : Except Err Val :=
  match p.resolvedTy with
  | Option.none => .error .unresolvedRef
  | some ty => tyNew clock (withDflt ty p.phDflt)

/-- Display name of a placeholder: the `_forward_if` decorator returns the
undecorated method (its wrapper is built and discarded), so the property
always yields the declared debug name — in particular while unresolved, as
the specification states. -/
def phName (p : Ph) : String := p.debugName

/-- Kinds of the Python callable parameters handled by `_init_schema`
(positional-or-keyword, `*args`, `**kwargs`). -/
inductive PKind where
  | posOrKw
  | varPos
  | varKw
deriving DecidableEq, Repr

/-- One `inspect.Parameter`: name, kind, optional class annotation and
optional default value (`Option.none` is `Parameter.empty`). -/
structure Param where
  pname : String
  kind : PKind
  annot : Option Klass
  pdflt : Option Val

/-- Python `issubclass` on the modelled classes (`bool` under `int`,
everything under `object`, otherwise reflexive). -/
def issubclass : Klass → Klass → Bool
  | _, .obj => true
  | .bool, .int => true
  | k, k2 => k = k2

/-- The `POSSIBLE_TYPES` scan order of `basic/inspection.py` with each
entry's `klass`. -/
def possibleTypes : List (Klass × Ty) :=
  [(.bool, .tbool .required), (.int, .tint .required), (.float, .tfloat .required),
   (.tuple, .ttuple Option.none .required), (.list, .tlist Option.none .required),
   (.dict, .tdict Option.none .required), (.path, .tpath .required),
   (.datetime, .tdatetime .required), (.str, .tstr .required), (.bytes, .tbytes .required)]

/-- First `POSSIBLE_TYPES` entry whose `klass` is a superclass of the given
class. -/
def scanPossible (k : Klass) : Option Ty :=
  (possibleTypes.find? (fun p => issubclass k p.1)).map Prod.snd

/-- The `type_` local of `_parameter_type`: either a native class or an
already-built descriptor. -/
inductive TyOrClass where
  | cls (k : Klass)
  | bt (t : Ty)

/-- Python `type(value)` for the modelled values (used when a parameter's
type is inferred from its default's class).  The `None` default never reaches
this (`default not in [None, REQUIRED]`); the `obj` result for `none` is the
unreachable filler. -/
def classOf : Val → Klass
  | .none => .obj
  | .vint _ => .int
  | .vbool _ => .bool
  | .vfloat _ => .float
  | .vstr _ => .str
  | .vbytes _ => .bytes
  | .vdt _ => .datetime
  | .vpath _ => .path
  | .vlist _ => .list
  | .vtuple _ => .tuple
  | .vdict _ => .dict
  | .vstruct _ => .strct

/-- `guess_type` restricted to the inputs `_parameter_type` produces: a
descriptor is returned as is, `None` yields `Any.none`, and a class is
scanned against `POSSIBLE_TYPES`.  The residual `class_type` fallback
(recursive reflective derivation for an unknown class) is outside the claims
and modelled as a failure. -/
def guess_type_of : Option TyOrClass → Except Err Ty
  | some (.bt t) => .ok t
  | Option.none => .ok (.tany (.val .none))
  | some (.cls k) =>
    match scanPossible k with
    | some t => .ok t
    | Option.none => .error .typeMismatch

/-- Attach the `EMPTY` policy (`type_.empty`) to a pending `type_`; on a bare
class this attribute access raises (`AttributeError`), a path no claim
reaches. -/
def setEmptyPolicy : TyOrClass → Except Err TyOrClass
  | .bt t => .ok (.bt (withDflt t .empty))
  | .cls _ => .error .typeMismatch

/-- `_parameter_type(parameter)` with no `extra` entry: infer `type_` from
the annotation, else from the class of a (non-`None`) default; a `**kwargs`
parameter defaults to `Dict[Any]` (keys implicitly `Str`) and a `*args`
parameter to `List[Any]`, each given the `EMPTY` policy when the parameter
has no explicit default; finally `guess_type` and, when a default exists,
attach it — unless the guessed descriptor already has a default, in which
case a non-`None` default raises `ValueError`. -/
def parameter_type (p : Param) : Except Err Ty :=
  let ty0 : Option TyOrClass :=
    match p.annot with
    | some k => some (.cls k)
    | Option.none =>
      match p.pdflt with
      | some Val.none => Option.none
      | some dv => some (.cls (classOf dv))
      | Option.none => Option.none
  match
    (match p.kind with
     | .varKw =>
       let t2 := ty0.getD (.bt (.tdict (some (.tstr .required, .tany .required)) .required))
       match p.pdflt with
       | Option.none => setEmptyPolicy t2
       | some _ => .ok t2
     | .varPos =>
       let t2 := ty0.getD (.bt (.tlist (some (.tany .required)) .required))
       match p.pdflt with
       | Option.none => setEmptyPolicy t2
       | some _ => .ok t2
     | .posOrKw =>
       match ty0 with
       | some t => .ok t
       | Option.none => .ok (.bt (.tany (.val .none)))) with
  | .error e => .error e
  | .ok ty1 =>
    match guess_type_of (some ty1) with
    | .error e => .error e
    | .ok bt =>
      match p.pdflt with
      | Option.none => .ok bt
      | some dv =>
        if !hasDefault bt then .ok (withDflt bt (.val dv))
        else
          match dv with
          | Val.none => .ok bt
          | _ => .error .policy

/-- Result of `_init_schema` / `_class_struct`: the derived field schema, the
recorded variadic field names, and the empty-constructible flag. -/
structure ClassInfo where
  ciSchema : List (String × Ty)
  argsName : Option String
  kwargsName : Option String
  emptyConstructible : Bool

/-- Body of the `_init_schema` parameter loop: derive each field's
descriptor, record the variadic names, and clear the empty-constructible flag
on any field without a default.  `_empty_defaultify` is the identity on every
descriptor the claims derive (it only rewrites nested reflective `ClassType`
fields). -/
def initSchemaFields : List Param → Except Err ClassInfo
  | [] => .ok ⟨[], Option.none, Option.none, true⟩
  | p :: rest =>
    match parameter_type p with
    | .error e => .error e
    | .ok fieldTy =>
      match initSchemaFields rest with
      | .error e => .error e
      | .ok ci =>
        .ok ⟨(p.pname, fieldTy) :: ci.ciSchema,
             (match p.kind with | .varPos => some p.pname | _ => ci.argsName),
             (match p.kind with | .varKw => some p.pname | _ => ci.kwargsName),
             (hasDefault fieldTy && ci.emptyConstructible)⟩

/-- `_init_schema(init)`: inspect the parameter list, skipping the first
(implicit `self`) parameter, and build the reflective record descriptor's
schema. -/
def init_schema (params : List Param) : Except Err ClassInfo :=
  initSchemaFields (params.drop 1)

/-- Python `dict.pop(name)`: the value and the remaining mapping, or `None`
when the key is absent. -/
def popField : List (String × Val) → String → Option (Val × List (String × Val))
  | [], _ => Option.none
  | (m, w) :: rest, n =>
    if m = n then some (w, rest)
    else
      match popField rest n with
      | some (v, rest2) => some (v, (m, w) :: rest2)
      | Option.none => Option.none

/-- Python `dict.update`: merge the second mapping into the first, in
order. -/
def updateFields : List (String × Val) → List (String × Val) → List (String × Val)
  | base, [] => base
  | base, (n, v) :: rest => updateFields (setField base n v) rest

/-- Items of a `**`-spreadable mapping: string keys required (a non-string
key raises `TypeError` at the call). -/
def strKeyPairs : List (Val × Val) → Except Err (List (String × Val))
  | [] => .ok []
  | (.vstr n, v) :: rest =>
    match strKeyPairs rest with
    | .ok ps => .ok ((n, v) :: ps)
    | .error e => .error e
  | _ => .error .typeMismatch

/-- `ClassType.get_args_kwargs`: start from the record's fields as keyword
arguments; pop the variadic-positional field (its value is spread with `*`,
so it must be a sequence) into the positional list, and merge the items of
the variadic-keyword field (spread with `**`, so string keys) into the
keyword mapping. -/
def get_args_kwargs (ci : ClassInfo) (fields : List (String × Val)) :
    Except Err (List Val × List (String × Val)) :=
  match
    ((match ci.argsName with
      | Option.none => .ok ([], fields)
      | some a =>
        match popField fields a with
        | some (.vlist xs, rest) => .ok (xs, rest)
        | some (.vtuple xs, rest) => .ok (xs, rest)
        | some _ => .error .typeMismatch
        | Option.none => .error .fieldNotSet) :
      Except Err (List Val × List (String × Val))) with
  | .error e => .error e
  | .ok (args, kw1) =>
    match ci.kwargsName with
    | Option.none => .ok (args, kw1)
    | some kwn =>
      match popField kw1 kwn with
      | some (.vdict es, rest) =>
        match strKeyPairs es with
        | .ok ps => .ok (args, updateFields rest ps)
        | .error e => .error e
      | some _ => .error .typeMismatch
      | Option.none => .error .fieldNotSet

/-- Names of the positional-or-keyword parameters of a signature, in
order. -/
def posParamNames (sig : List Param) : List String :=
  (sig.filter (fun p => p.kind = PKind.posOrKw)).map Param.pname

/-- CPython call binding for a signature of positional-or-keyword parameters
optionally followed by `*args` and `**kwargs`: positional arguments fill the
named parameters in order, the overflow goes to `*args` (or raises
`TypeError` without one); each keyword argument then binds its named
parameter — raising `TypeError` (`got multiple values`) if that parameter was
already filled positionally — or falls into `**kwargs` when the name is not a
parameter (raising `TypeError` for an unexpected keyword without one);
finally any named parameter still unbound takes its declared default or
raises `TypeError` (`missing argument`).  The result is the bound
name-to-value environment (named parameters in signature order, then the
variadic collections). -/
def callBind (sig : List Param) (args : List Val) (kwargs : List (String × Val)) :
    Except Err (List (String × Val)) :=
  let posNames := posParamNames sig
  let hasVarPos := sig.any (fun p => p.kind = PKind.varPos)
  let varKwName := (sig.find? (fun p => p.kind = PKind.varKw)).map Param.pname
  if args.length > posNames.length && !hasVarPos then .error .tooManyPositional
  else
    let posBound := posNames.zip args
    let leftovers := args.drop posNames.length
    match
      (kwargs.foldl
        (fun (acc : Except Err (List (String × Val) × List (String × Val)))
             (kv : String × Val) =>
          match acc with
          | .error e => .error e
          | .ok (bound, extra) =>
            if posNames.contains kv.1 then
              if (bound.map Prod.fst).contains kv.1 then .error (.multipleValues kv.1)
              else .ok (bound ++ [kv], extra)
            else
              match varKwName with
              | some _ => .ok (bound, extra ++ [kv])
              | Option.none => .error (.unexpectedKeyword kv.1))
        (.ok (posBound, []))) with
    | .error e => .error e
    | .ok (bound, extra) =>
      match
        (sig.foldl
          (fun (acc : Except Err (List (String × Val))) (p : Param) =>
            match acc with
            | .error e => .error e
            | .ok env =>
              match p.kind with
              | .posOrKw =>
                match lookupVal bound p.pname with
                | some v => .ok (env ++ [(p.pname, v)])
                | Option.none =>
                  match p.pdflt with
                  | some dv => .ok (env ++ [(p.pname, dv)])
                  | Option.none => .error (.missingArgument p.pname)
              | .varPos => .ok (env ++ [(p.pname, .vtuple leftovers)])
              | .varKw => .ok (env ++ [(p.pname, .vdict (extra.map (fun kv => (.vstr kv.1, kv.2))))]))
          (.ok [])) with
      | .error e => .error e
      | .ok env => .ok env

/-- `ClassType._convert`: gather the record's fields back into
positional/keyword spread form and invoke the bound target callable — the
observable behaviour of the call is its argument binding against the
callable's (post-`self`) signature. -/
def convertCall (ci : ClassInfo) (sig : List Param) (fields : List (String × Val)) :
    Except Err (List (String × Val)) :=
  match get_args_kwargs ci fields with
  | .error e => .error e
  | .ok (args, kwargs) => callBind sig args kwargs

/-- Success discriminator for modelled computations. -/
def isOkE {α : Type} : Except Err α → Bool
  | .ok _ => true
  | .error _ => false

/-- Round trip of one value through one target: encode with `toEncoded`, then
decode the result with `fromEncoded` (errors propagate). -/
def rt (clock : DT) (t : Ty) (tgt : Target) (v : Val) : Except Err Val :=
  match toJsony t tgt v with
  | .ok e => fromJsony clock t tgt e
  | .error e => .error e

/-- A descriptor whose default policy can be exercised by `Struct.__init__`
without an incidental failure: `REQUIRED` and `MISSING` are handled by the
construction loop itself, and any other policy must produce a default value
successfully. -/
def wfDflt (clock : DT) (ty : Ty) : Bool :=
  match dfltOf ty with
  | .required => true
  | .missing => true
  | _ => isOkE (default_value clock ty)

/-- A fixed ambient clock reading used to instantiate concrete scenarios. -/
def clock0 : DT := ⟨2020, 1, 1, 0, 0, 0⟩

theorem b85digitOf_getD (v : Nat) (h : v < 85) :
    b85digitOf (b85chars.getD v ' ') = some v := by
  have H : ∀ i : Fin 85, b85digitOf (b85chars.getD i.val ' ') = some i.val := by decide
  exact H ⟨v, h⟩

theorem b85digitOf_tilde : b85digitOf '~' = some 84 := by decide

theorem b85wordChars_length (w : Nat) : (b85wordChars w).length = 5 := by
  simp [b85wordChars]

theorem b85decRaw_word (w : Nat) (hw : w < 2 ^ 32) (rest : List Char) :
    b85decRaw (b85wordChars w ++ rest) =
      match b85decRaw rest with
      | .ok t => .ok (b85decWordBytes w ++ t)
      | .error e => .error e := by
  have h85 : (0:Nat) < 85 := by norm_num
  have h0 := b85digitOf_getD (w / 85 ^ 4 % 85) (Nat.mod_lt _ h85)
  have h1 := b85digitOf_getD (w / 85 ^ 3 % 85) (Nat.mod_lt _ h85)
  have h2 := b85digitOf_getD (w / 85 ^ 2 % 85) (Nat.mod_lt _ h85)
  have h3 := b85digitOf_getD (w / 85 % 85) (Nat.mod_lt _ h85)
  have h4 := b85digitOf_getD (w % 85) (Nat.mod_lt _ h85)
  have hacc : (((w / 85 ^ 4 % 85 * 85 + w / 85 ^ 3 % 85) * 85 + w / 85 ^ 2 % 85) * 85 +
      w / 85 % 85) * 85 + w % 85 = w := by omega
  simp only [b85wordChars, List.cons_append, List.nil_append, b85decRaw, h0, h1, h2, h3, h4,
    hacc, hw, if_true]
  simp

theorem b85encRaw_length (bs : List Nat) (h : bs.length % 4 = 0) :
    (b85encRaw bs).length = bs.length / 4 * 5 := by
  match bs with
  | [] => simp [b85encRaw]
  | [_] => simp at h
  | [_, _] => simp at h
  | [_, _, _] => simp at h
  | b0 :: b1 :: b2 :: b3 :: rest =>
    have hr : rest.length % 4 = 0 := by simp at h; omega
    have ih := b85encRaw_length rest hr
    simp [b85encRaw, b85wordChars, ih]
    omega

theorem b85word_bytes (b0 b1 b2 b3 : Nat) (h0 : b0 < 256) (h1 : b1 < 256)
    (h2 : b2 < 256) (h3 : b3 < 256) :
    b85decWordBytes (b85word b0 b1 b2 b3) = [b0, b1, b2, b3] := by
  simp only [b85decWordBytes, b85word, List.cons.injEq, and_true]
  refine ⟨by omega, by omega, by omega, by omega⟩

theorem b85word_lt (b0 b1 b2 b3 : Nat) (h0 : b0 < 256) (h1 : b1 < 256)
    (h2 : b2 < 256) (h3 : b3 < 256) : b85word b0 b1 b2 b3 < 2 ^ 32 := by
  simp only [b85word]
  omega

theorem b85_tail1 (b0 : Nat) (h0 : b0 < 256) :
    ∃ junk, b85decRaw ((b85wordChars (b85word b0 0 0 0)).take 2 ++ ['~', '~', '~']) =
      .ok (b0 :: junk) ∧ junk.length = 3 := by
  set w := b85word b0 0 0 0 with hwdef
  have hw : w = b0 * 16777216 := by simp [hwdef, b85word]; omega
  have h43 : w / 85 ^ 3 / 85 = w / 85 ^ 4 := by
    rw [Nat.div_div_eq_div_mul]
    norm_num
  set d0 := w / 85 ^ 4 % 85 with hd0def
  set d1 := w / 85 ^ 3 % 85 with hd1def
  set acc := (((d0 * 85 + d1) * 85 + 84) * 85 + 84) * 85 + 84 with haccdef
  have hdam := Nat.div_add_mod (w / 85 ^ 3) 85
  rw [h43] at hdam
  have hb : w / 85 ^ 4 ≤ 84 := by omega
  have hprefix : d0 * 85 + d1 = w / 85 ^ 3 := by omega
  have haccw : acc = 614125 * (w / 85 ^ 3) + 614124 := by omega
  have hdam3 := Nat.div_add_mod w (85 ^ 3)
  have hlt : acc < 2 ^ 32 := by omega
  have hdval : acc / 2 ^ 24 = b0 := by omega
  have hbyte : acc / 2 ^ 24 % 256 = b0 := by
    rw [hdval]
    exact Nat.mod_eq_of_lt h0
  have hdig0 : b85digitOf (b85chars.getD d0 ' ') = some d0 := b85digitOf_getD _ (by omega)
  have hdig1 : b85digitOf (b85chars.getD d1 ' ') = some d1 := b85digitOf_getD _ (by omega)
  have e1 : (b85wordChars w).take 2 = [b85chars.getD d0 ' ', b85chars.getD d1 ' '] := by
    simp [b85wordChars, List.take, hd0def, hd1def]
  refine ⟨[acc / 2 ^ 16 % 256, acc / 2 ^ 8 % 256, acc % 256], ?_, rfl⟩
  rw [e1]
  simp only [List.cons_append, List.nil_append, b85decRaw, hdig0, hdig1, b85digitOf_tilde]
  rw [← haccdef]
  simp only [hlt, if_true, b85decRaw, b85decWordBytes, List.append_nil, hbyte]

theorem b85_tail2 (b0 b1 : Nat) (h0 : b0 < 256) (h1 : b1 < 256) :
    ∃ junk, b85decRaw ((b85wordChars (b85word b0 b1 0 0)).take 3 ++ ['~', '~']) =
      .ok (b0 :: b1 :: junk) ∧ junk.length = 2 := by
  set w := b85word b0 b1 0 0 with hwdef
  have hw : w = b0 * 16777216 + b1 * 65536 := by simp [hwdef, b85word]; omega
  have h43 : w / 85 ^ 3 / 85 = w / 85 ^ 4 := by
    rw [Nat.div_div_eq_div_mul]
    norm_num
  have h32 : w / 85 ^ 2 / 85 = w / 85 ^ 3 := by
    rw [Nat.div_div_eq_div_mul]
    norm_num
  set d0 := w / 85 ^ 4 % 85 with hd0def
  set d1 := w / 85 ^ 3 % 85 with hd1def
  set d2 := w / 85 ^ 2 % 85 with hd2def
  set acc := (((d0 * 85 + d1) * 85 + d2) * 85 + 84) * 85 + 84 with haccdef
  have hdam := Nat.div_add_mod (w / 85 ^ 3) 85
  rw [h43] at hdam
  have hdam2 := Nat.div_add_mod (w / 85 ^ 2) 85
  rw [h32] at hdam2
  have hb : w / 85 ^ 4 ≤ 84 := by omega
  have hprefix : (d0 * 85 + d1) * 85 + d2 = w / 85 ^ 2 := by omega
  have haccw : acc = 7225 * (w / 85 ^ 2) + 7224 := by omega
  have hdamw := Nat.div_add_mod w (85 ^ 2)
  have hlt : acc < 2 ^ 32 := by omega
  have hd24 : acc / 2 ^ 24 = b0 := by omega
  have hd16 : acc / 2 ^ 16 = b0 * 256 + b1 := by omega
  have hbyte0 : acc / 2 ^ 24 % 256 = b0 := by
    rw [hd24]
    exact Nat.mod_eq_of_lt h0
  have hbyte1 : acc / 2 ^ 16 % 256 = b1 := by
    rw [hd16]
    omega
  have hdig0 : b85digitOf (b85chars.getD d0 ' ') = some d0 := b85digitOf_getD _ (by omega)
  have hdig1 : b85digitOf (b85chars.getD d1 ' ') = some d1 := b85digitOf_getD _ (by omega)
  have hdig2 : b85digitOf (b85chars.getD d2 ' ') = some d2 := b85digitOf_getD _ (by omega)
  have e1 : (b85wordChars w).take 3 =
      [b85chars.getD d0 ' ', b85chars.getD d1 ' ', b85chars.getD d2 ' '] := by
    simp [b85wordChars, List.take, hd0def, hd1def, hd2def]
  refine ⟨[acc / 2 ^ 8 % 256, acc % 256], ?_, rfl⟩
  rw [e1]
  simp only [List.cons_append, List.nil_append, b85decRaw, hdig0, hdig1, hdig2, b85digitOf_tilde]
  rw [← haccdef]
  simp only [hlt, if_true, b85decRaw, b85decWordBytes, List.append_nil, hbyte0, hbyte1]

theorem b85_tail3 (b0 b1 b2 : Nat) (h0 : b0 < 256) (h1 : b1 < 256) (h2 : b2 < 256) :
    ∃ junk, b85decRaw ((b85wordChars (b85word b0 b1 b2 0)).take 4 ++ ['~']) =
      .ok (b0 :: b1 :: b2 :: junk) ∧ junk.length = 1 := by
  set w := b85word b0 b1 b2 0 with hwdef
  have hw : w = b0 * 16777216 + b1 * 65536 + b2 * 256 := by simp [hwdef, b85word]; omega
  have h43 : w / 85 ^ 3 / 85 = w / 85 ^ 4 := by
    rw [Nat.div_div_eq_div_mul]
    norm_num
  have h32 : w / 85 ^ 2 / 85 = w / 85 ^ 3 := by
    rw [Nat.div_div_eq_div_mul]
    norm_num
  have h21 : w / 85 / 85 = w / 85 ^ 2 := by
    rw [Nat.div_div_eq_div_mul]
    norm_num
  set d0 := w / 85 ^ 4 % 85 with hd0def
  set d1 := w / 85 ^ 3 % 85 with hd1def
  set d2 := w / 85 ^ 2 % 85 with hd2def
  set d3 := w / 85 % 85 with hd3def
  set acc := (((d0 * 85 + d1) * 85 + d2) * 85 + d3) * 85 + 84 with haccdef
  have hdam := Nat.div_add_mod (w / 85 ^ 3) 85
  rw [h43] at hdam
  have hdam2 := Nat.div_add_mod (w / 85 ^ 2) 85
  rw [h32] at hdam2
  have hdam1 := Nat.div_add_mod (w / 85) 85
  rw [h21] at hdam1
  have hb : w / 85 ^ 4 ≤ 84 := by omega
  have hprefix : ((d0 * 85 + d1) * 85 + d2) * 85 + d3 = w / 85 := by omega
  have haccw : acc = 85 * (w / 85) + 84 := by omega
  have hdamw := Nat.div_add_mod w 85
  have hlt : acc < 2 ^ 32 := by omega
  have hd24 : acc / 2 ^ 24 = b0 := by omega
  have hd16 : acc / 2 ^ 16 = b0 * 256 + b1 := by omega
  have hd8 : acc / 2 ^ 8 = (b0 * 256 + b1) * 256 + b2 := by omega
  have hbyte0 : acc / 2 ^ 24 % 256 = b0 := by
    rw [hd24]
    exact Nat.mod_eq_of_lt h0
  have hbyte1 : acc / 2 ^ 16 % 256 = b1 := by
    rw [hd16]
    omega
  have hbyte2 : acc / 2 ^ 8 % 256 = b2 := by
    rw [hd8]
    omega
  have hdig0 : b85digitOf (b85chars.getD d0 ' ') = some d0 := b85digitOf_getD _ (by omega)
  have hdig1 : b85digitOf (b85chars.getD d1 ' ') = some d1 := b85digitOf_getD _ (by omega)
  have hdig2 : b85digitOf (b85chars.getD d2 ' ') = some d2 := b85digitOf_getD _ (by omega)
  have hdig3 : b85digitOf (b85chars.getD d3 ' ') = some d3 := b85digitOf_getD _ (by omega)
  have e1 : (b85wordChars w).take 4 =
      [b85chars.getD d0 ' ', b85chars.getD d1 ' ', b85chars.getD d2 ' ', b85chars.getD d3 ' '] := by
    simp [b85wordChars, List.take, hd0def, hd1def, hd2def, hd3def]
  refine ⟨[acc % 256], ?_, rfl⟩
  rw [e1]
  simp only [List.cons_append, List.nil_append, b85decRaw, hdig0, hdig1, hdig2, hdig3,
    b85digitOf_tilde]
  rw [← haccdef]
  simp only [hlt, if_true, b85decRaw, b85decWordBytes, List.append_nil, hbyte0, hbyte1, hbyte2]

theorem b85RawRT (bs : List Nat) (hall : ∀ b ∈ bs, b < 256) :
    ∃ junk,
      b85decRaw ((b85encRaw (bs ++ List.replicate ((4 - bs.length % 4) % 4) 0)).take
          ((b85encRaw (bs ++ List.replicate ((4 - bs.length % 4) % 4) 0)).length -
            (4 - bs.length % 4) % 4) ++
        List.replicate ((4 - bs.length % 4) % 4) '~') = .ok (bs ++ junk) ∧
      junk.length = (4 - bs.length % 4) % 4 := by
  match bs with
  | [] =>
    refine ⟨[], ?_, rfl⟩
    simp [b85encRaw, b85decRaw]
  | [b0] =>
    have h0 : b0 < 256 := hall b0 (by simp)
    obtain ⟨junk, hdec, hlen⟩ := b85_tail1 b0 h0
    refine ⟨junk, ?_, hlen⟩
    show b85decRaw ((b85encRaw [b0, 0, 0, 0]).take ((b85encRaw [b0, 0, 0, 0]).length - 3) ++
      List.replicate 3 '~') = .ok ([b0] ++ junk)
    have he : b85encRaw [b0, 0, 0, 0] = b85wordChars (b85word b0 0 0 0) := by
      simp [b85encRaw]
    rw [he, b85wordChars_length]
    exact hdec
  | [b0, b1] =>
    have h0 : b0 < 256 := hall b0 (by simp)
    have h1 : b1 < 256 := hall b1 (by simp)
    obtain ⟨junk, hdec, hlen⟩ := b85_tail2 b0 b1 h0 h1
    refine ⟨junk, ?_, hlen⟩
    show b85decRaw ((b85encRaw [b0, b1, 0, 0]).take ((b85encRaw [b0, b1, 0, 0]).length - 2) ++
      List.replicate 2 '~') = .ok ([b0, b1] ++ junk)
    have he : b85encRaw [b0, b1, 0, 0] = b85wordChars (b85word b0 b1 0 0) := by
      simp [b85encRaw]
    rw [he, b85wordChars_length]
    exact hdec
  | [b0, b1, b2] =>
    have h0 : b0 < 256 := hall b0 (by simp)
    have h1 : b1 < 256 := hall b1 (by simp)
    have h2 : b2 < 256 := hall b2 (by simp)
    obtain ⟨junk, hdec, hlen⟩ := b85_tail3 b0 b1 b2 h0 h1 h2
    refine ⟨junk, ?_, hlen⟩
    show b85decRaw ((b85encRaw [b0, b1, b2, 0]).take ((b85encRaw [b0, b1, b2, 0]).length - 1) ++
      List.replicate 1 '~') = .ok ([b0, b1, b2] ++ junk)
    have he : b85encRaw [b0, b1, b2, 0] = b85wordChars (b85word b0 b1 b2 0) := by
      simp [b85encRaw]
    rw [he, b85wordChars_length]
    exact hdec
  | b0 :: b1 :: b2 :: b3 :: rest =>
    have h0 : b0 < 256 := hall b0 (by simp)
    have h1 : b1 < 256 := hall b1 (by simp)
    have h2 : b2 < 256 := hall b2 (by simp)
    have h3 : b3 < 256 := hall b3 (by simp)
    obtain ⟨junk, hdec, hlen⟩ := b85RawRT rest (fun b hb => hall b (by simp [hb]))
    have hp : (4 - (b0 :: b1 :: b2 :: b3 :: rest).length % 4) % 4 =
        (4 - rest.length % 4) % 4 := by
      simp
      omega
    refine ⟨junk, ?_, ?_⟩
    · rw [hp]
      set p := (4 - rest.length % 4) % 4 with hpdef
      have hppad : (rest.length + p) % 4 = 0 := by omega
      have he : b85encRaw ((b0 :: b1 :: b2 :: b3 :: rest) ++ List.replicate p 0) =
          b85wordChars (b85word b0 b1 b2 b3) ++ b85encRaw (rest ++ List.replicate p 0) := by
        simp [b85encRaw]
      rw [he]
      have hL2 : (b85encRaw (rest ++ List.replicate p 0)).length =
          (rest.length + p) / 4 * 5 := by
        rw [b85encRaw_length]
        · simp
        · simp
          omega
      have hple : p ≤ (b85encRaw (rest ++ List.replicate p 0)).length := by
        rw [hL2]
        omega
      have htake : (b85wordChars (b85word b0 b1 b2 b3) ++
            b85encRaw (rest ++ List.replicate p 0)).take
          ((b85wordChars (b85word b0 b1 b2 b3) ++
            b85encRaw (rest ++ List.replicate p 0)).length - p) =
          b85wordChars (b85word b0 b1 b2 b3) ++
            (b85encRaw (rest ++ List.replicate p 0)).take
              ((b85encRaw (rest ++ List.replicate p 0)).length - p) := by
        have hlenapp : (b85wordChars (b85word b0 b1 b2 b3) ++
            b85encRaw (rest ++ List.replicate p 0)).length - p =
            (b85wordChars (b85word b0 b1 b2 b3)).length +
              ((b85encRaw (rest ++ List.replicate p 0)).length - p) := by
          simp [b85wordChars_length]
          omega
        rw [hlenapp]
        exact List.take_append _
      rw [htake, List.append_assoc]
      rw [b85decRaw_word _ (b85word_lt b0 b1 b2 b3 h0 h1 h2 h3)]
      rw [hdec]
      rw [b85word_bytes b0 b1 b2 b3 h0 h1 h2 h3]
      simp
    · rw [hlen, hp]

theorem b85_roundtrip (bs : List Nat) (hall : ∀ b ∈ bs, b < 256) :
    b85decode (b85encode bs) = .ok bs := by
  obtain ⟨junk, hdec, hlen⟩ := b85RawRT bs hall
  unfold b85encode b85decode
  dsimp only
  set p := (4 - bs.length % 4) % 4 with hpdef
  set E := b85encRaw (bs ++ List.replicate p 0) with hEdef
  have hL : E.length = (bs.length + p) / 4 * 5 := by
    rw [hEdef, b85encRaw_length]
    · simp
    · simp
      omega
  have hpleL : p ≤ E.length := by
    rw [hL]
    omega
  have htl : (E.take (E.length - p)).length = E.length - p := by
    rw [List.length_take]
    omega
  have hpad : (5 - (E.take (E.length - p)).length % 5) % 5 = p := by
    rw [htl]
    omega
  rw [hpad, hdec]
  dsimp only
  have hjl : (bs ++ junk).length - p = bs.length := by
    simp [hlen]
  rw [hjl, List.take_left]

theorem digitCh_spec : ∀ k : Fin 10, isDigitCh (digitCh k.val) = true ∧
    digitValCh (digitCh k.val) = k.val := by decide

theorem digitCh_mod (n : Nat) : digitCh (n % 10) = digitCh n := by
  simp [digitCh, Nat.mod_mod_of_dvd]

theorem isDigitCh_digitCh (n : Nat) : isDigitCh (digitCh n) = true := by
  rw [← digitCh_mod]
  exact (digitCh_spec ⟨n % 10, Nat.mod_lt _ (by norm_num)⟩).1

theorem digitValCh_digitCh (n : Nat) : digitValCh (digitCh n) = n % 10 := by
  rw [← digitCh_mod]
  exact (digitCh_spec ⟨n % 10, Nat.mod_lt _ (by norm_num)⟩).2

theorem parseDigits_pad (w n : Nat) (rest : List Char) :
    parseDigits w (padChars w n ++ rest) = some (n % 10 ^ w, rest) := by
  induction w generalizing n rest with
  | zero => simp [padChars, parseDigits, Nat.mod_one]
  | succ w ih =>
    have hsplit : padChars (w + 1) n ++ rest = padChars w (n / 10) ++ (digitCh n :: rest) := by
      simp [padChars]
    rw [hsplit]
    simp only [parseDigits, ih, isDigitCh_digitCh, if_true, digitValCh_digitCh]
    have : n / 10 % 10 ^ w * 10 + n % 10 = n % 10 ^ (w + 1) := by
      rw [pow_succ, mul_comm (10 ^ w) 10, Nat.mod_mul]
      ring
    rw [this]

theorem parseDigits_pad_nil (w n : Nat) :
    parseDigits w (padChars w n) = some (n % 10 ^ w, []) := by
  have := parseDigits_pad w n []
  simpa using this

theorem parseIso_dtChars (d : DT) (h : d.isValid = true) :
    parseIsoChars (dtChars d) = some d := by
  obtain ⟨y, mo, da, hh, mi, s⟩ := d
  simp only [DT.isValid, Bool.and_eq_true, decide_eq_true_eq] at h
  obtain ⟨⟨⟨⟨⟨⟨⟨⟨h1, h2⟩, h3⟩, h4⟩, h5⟩, h6⟩, h7⟩, h8⟩, h9⟩ := h
  have hy : y % 10 ^ 4 = y := Nat.mod_eq_of_lt (by omega)
  have hmo : mo % 10 ^ 2 = mo := Nat.mod_eq_of_lt (by omega)
  have hda : da % 10 ^ 2 = da := Nat.mod_eq_of_lt (by omega)
  have hhh : hh % 10 ^ 2 = hh := Nat.mod_eq_of_lt (by omega)
  have hmi : mi % 10 ^ 2 = mi := Nat.mod_eq_of_lt (by omega)
  have hs : s % 10 ^ 2 = s := Nat.mod_eq_of_lt (by omega)
  simp only [parseIsoChars, dtChars, List.append_assoc, List.cons_append, parseDigits_pad,
    parseDigits_pad_nil, Option.bind_eq_bind, Option.some_bind, expectCh, if_true,
    hy, hmo, hda, hhh, hmi, hs]
  simp only [DT.isValid, Bool.and_eq_true, decide_eq_true_eq]
  simp [h1, h2, h3, h4, h5, h6, h7, h8, h9]

theorem fromiso_dtStr (d : DT) (h : d.isValid = true) :
    fromisoformat (dtStr d) = .ok d := by
  have : (dtStr d).data = dtChars d := rfl
  rw [fromisoformat, this, parseIso_dtChars d h]

theorem anyConvert_id (v : Val) : anyConvert v = .ok v := by
  cases v <;> rfl

theorem anyMapList_id (xs : List Val) : anyMapList xs = .ok xs := by
  induction xs with
  | nil => rfl
  | cons x rest ih => simp [anyMapList, anyConvert_id, ih]

theorem anyMapPairs_id (es : List (Val × Val)) : anyMapPairs es = .ok es := by
  induction es with
  | nil => rfl
  | cons kv rest ih =>
    obtain ⟨k, v⟩ := kv
    simp [anyMapPairs, anyConvert_id, ih]

theorem lookupTy_mem {schema : List (String × Ty)} {n : String} {ty : Ty}
    (h : lookupTy schema n = some ty) : (n, ty) ∈ schema := by
  induction schema with
  | nil => simp [lookupTy] at h
  | cons hd tl ih =>
    obtain ⟨m, t⟩ := hd
    simp only [lookupTy] at h
    split at h
    · cases h
      simp_all
    · simp [ih h]

theorem lookupTy_mem_name {schema : List (String × Ty)} {n : String} {ty : Ty}
    (h : lookupTy schema n = some ty) : n ∈ schema.map Prod.fst := by
  have := lookupTy_mem h
  exact List.mem_map.mpr ⟨(n, ty), this, rfl⟩

theorem namesNodup_iff (l : List String) : namesNodup l = true ↔ l.Nodup := by
  induction l with
  | nil => simp [namesNodup]
  | cons n rest ih => simp [namesNodup, ih]

theorem checkKwargs_all (rem : List String) (fields : List (String × Val))
    (hnodr : rem.Nodup)
    (hsub : ∀ n ∈ fields.map Prod.fst, n ∈ rem)
    (hnodf : (fields.map Prod.fst).Nodup) :
    ∃ rem2, checkKwargs rem fields = .ok (fields, rem2) ∧
      ∀ m, m ∈ rem2 ↔ (m ∈ rem ∧ m ∉ fields.map Prod.fst) := by
  induction fields generalizing rem with
  | nil =>
    refine ⟨rem, rfl, ?_⟩
    simp
  | cons hd tl ih =>
    obtain ⟨n, v⟩ := hd
    have hconsmap : List.map Prod.fst ((n, v) :: tl) = n :: List.map Prod.fst tl := by simp
    have hcons := List.nodup_cons.mp (by rw [hconsmap] at hnodf; exact hnodf)
    have hnmem : n ∈ rem := hsub n (by simp)
    have hcont : rem.contains n = true := by simp [hnmem]
    have hnr2 : (rem.erase n).Nodup := hnodr.erase n
    have hsub2 : ∀ m ∈ tl.map Prod.fst, m ∈ rem.erase n := by
      intro m hm
      have hmr : m ∈ rem := hsub m (by simp [hm])
      have hne : m ≠ n := by
        intro he
        subst he
        exact hcons.1 hm
      exact hnodr.mem_erase_iff.mpr ⟨hne, hmr⟩
    obtain ⟨rem2, hck, hch⟩ := ih (rem.erase n) hnr2 hsub2 hcons.2
    refine ⟨rem2, ?_, ?_⟩
    · simp [checkKwargs, hcont, hck, hnmem]
    · intro m
      rw [hch m, hnodr.mem_erase_iff, hconsmap]
      constructor
      · rintro ⟨⟨hne, hmr⟩, hmn⟩
        exact ⟨hmr, by simp [hne, hmn]⟩
      · rintro ⟨hmr, hmn⟩
        simp only [List.mem_cons, not_or] at hmn
        exact ⟨⟨hmn.1, hmr⟩, hmn.2⟩

theorem fillDefaults_allMissing (clock : DT) (schema : List (String × Ty)) (rem : List String)
    (h : ∀ p ∈ schema, p.1 ∈ rem → (dfltOf p.2).isMissing = true) :
    fillDefaults clock schema rem = .ok [] := by
  induction schema with
  | nil => rw [fillDefaults]
  | cons hd tl ih =>
    obtain ⟨n, ty⟩ := hd
    have ihr := ih (fun p hp => h p (by simp [hp]))
    rw [fillDefaults]
    by_cases hc : rem.contains n = true
    · have hm : (dfltOf ty).isMissing = true := h (n, ty) (by simp) (by simpa using hc)
      have : dfltOf ty = .missing := by
        cases hdf : dfltOf ty <;> simp_all [Dflt.isMissing]
      simp [hc, this, ihr]
    · have hnotmem : n ∉ rem := by simpa using hc
      simp [hc, ihr, hnotmem]

theorem structNew_id (clock : DT) (schema : List (String × Ty))
    (fields : List (String × Val))
    (hnods : (schema.map Prod.fst).Nodup)
    (hnodf : (fields.map Prod.fst).Nodup)
    (hsub : ∀ n ∈ fields.map Prod.fst, n ∈ schema.map Prod.fst)
    (habs : ∀ p ∈ schema, p.1 ∈ fields.map Prod.fst ∨ (dfltOf p.2).isMissing = true) :
    structNew clock schema fields = .ok fields := by
  obtain ⟨rem2, hck, hch⟩ := checkKwargs_all (schema.map Prod.fst) fields hnods hsub hnodf
  have hfd : fillDefaults clock schema rem2 = .ok [] := by
    apply fillDefaults_allMissing
    intro p hp hpr
    have := (hch p.1).mp hpr
    rcases habs p hp with hin | hmiss
    · exact absurd hin this.2
    · exact hmiss
  rw [structNew, hck]
  dsimp only
  rw [hfd]
  simp

theorem listRT (clock : DT) (pt : Ty) (tgt : Target) (xs : List Val)
    (H : ∀ x ∈ xs, validWith true pt x = true → rt clock pt tgt x = .ok x)
    (hv : validList true pt xs = true) :
    ∃ ys, listToJsony pt tgt xs = .ok ys ∧ listFromJsony clock pt tgt ys = .ok xs := by
  induction xs with
  | nil =>
    refine ⟨[], ?_, ?_⟩
    · rw [listToJsony.eq_def]
    · rw [listFromJsony.eq_def]
  | cons x rest ih =>
    rw [validList] at hv
    simp only [Bool.and_eq_true] at hv
    have hx := H x (by simp) hv.1
    rw [rt] at hx
    obtain ⟨y, hty, hfy⟩ : ∃ y, toJsony pt tgt x = .ok y ∧ fromJsony clock pt tgt y = .ok x := by
      cases hto : toJsony pt tgt x with
      | ok y =>
        rw [hto] at hx
        exact ⟨y, rfl, hx⟩
      | error e => rw [hto] at hx; cases hx
    obtain ⟨ys, h1, h2⟩ := ih (fun z hz => H z (by simp [hz])) hv.2
    refine ⟨y :: ys, ?_, ?_⟩
    · rw [listToJsony.eq_def]
      dsimp only
      rw [hty]
      dsimp only
      rw [h1]
    · rw [listFromJsony.eq_def]
      dsimp only
      rw [hfy]
      dsimp only
      rw [h2]

theorem pairsRT (clock : DT) (kt vt : Ty) (tgt : Target) (es : List (Val × Val))
    (HK : ∀ k, validWith true kt k = true → rt clock kt tgt k = .ok k)
    (HV : ∀ v, validWith true vt v = true → rt clock vt tgt v = .ok v)
    (hv : validPairs true kt vt es = true) :
    ∃ ys, pairsToJsony kt vt tgt es = .ok ys ∧ pairsFromJsony clock kt vt tgt ys = .ok es := by
  induction es with
  | nil =>
    refine ⟨[], ?_, ?_⟩
    · rw [pairsToJsony.eq_def]
    · rw [pairsFromJsony.eq_def]
  | cons kv rest ih =>
    obtain ⟨k, v⟩ := kv
    rw [validPairs] at hv
    simp only [Bool.and_eq_true] at hv
    have hk := HK k hv.1.1
    have hvv := HV v hv.1.2
    rw [rt] at hk hvv
    obtain ⟨k2, htk, hfk⟩ : ∃ k2, toJsony kt tgt k = .ok k2 ∧ fromJsony clock kt tgt k2 = .ok k := by
      cases hto : toJsony kt tgt k with
      | ok y => rw [hto] at hk; exact ⟨y, rfl, hk⟩
      | error e => rw [hto] at hk; cases hk
    obtain ⟨v2, htv, hfv⟩ : ∃ v2, toJsony vt tgt v = .ok v2 ∧ fromJsony clock vt tgt v2 = .ok v := by
      cases hto : toJsony vt tgt v with
      | ok y => rw [hto] at hvv; exact ⟨y, rfl, hvv⟩
      | error e => rw [hto] at hvv; cases hvv
    obtain ⟨ys, h1, h2⟩ := ih hv.2
    refine ⟨(k2, v2) :: ys, ?_, ?_⟩
    · rw [pairsToJsony.eq_def]
      dsimp only
      rw [htk, htv]
      dsimp only
      rw [h1]
    · rw [pairsFromJsony.eq_def]
      dsimp only
      rw [hfk, hfv]
      dsimp only
      rw [h2]

theorem tupleRT (clock : DT) (ps : List Ty) (tgt : Target) (xs : List Val)
    (H : ∀ p ∈ ps, ∀ x, validWith true p x = true → rt clock p tgt x = .ok x)
    (hlen : xs.length = ps.length)
    (hv : validTuple true ps xs = true) :
    ∃ ys, tupleToJsony ps tgt xs = .ok ys ∧ ys.length = xs.length ∧
      tupleFromJsony clock ps tgt ys = .ok xs := by
  match ps, xs with
  | [], [] =>
    refine ⟨[], ?_, rfl, ?_⟩
    · rw [tupleToJsony.eq_def]
    · rw [tupleFromJsony.eq_def]
  | [], x :: xrest => simp at hlen
  | p :: prest, [] => simp at hlen
  | p :: prest, x :: xrest =>
    rw [validTuple] at hv
    simp only [Bool.and_eq_true] at hv
    have hx := H p (by simp) x hv.1
    rw [rt] at hx
    obtain ⟨y, hty, hfy⟩ : ∃ y, toJsony p tgt x = .ok y ∧ fromJsony clock p tgt y = .ok x := by
      cases hto : toJsony p tgt x with
      | ok y => rw [hto] at hx; exact ⟨y, rfl, hx⟩
      | error e => rw [hto] at hx; cases hx
    obtain ⟨ys, h1, h2, h3⟩ := tupleRT clock prest tgt xrest
      (fun q hq => H q (by simp [hq])) (by simpa using hlen) hv.2
    refine ⟨y :: ys, ?_, by simp [h2], ?_⟩
    · rw [tupleToJsony.eq_def]
      dsimp only
      rw [hty]
      dsimp only
      rw [h1]
    · rw [tupleFromJsony.eq_def]
      dsimp only
      rw [hfy]
      dsimp only
      rw [h3]

theorem fieldsRT (clock : DT) (schema : List (String × Ty)) (tgt : Target)
    (fields : List (String × Val))
    (H : ∀ n ty fv, lookupTy schema n = some ty → (n, fv) ∈ fields →
      validWith true ty fv = true → rt clock ty tgt fv = .ok fv)
    (hv : validFields true schema fields = true) :
    ∃ es, fieldsToJsony schema tgt fields = .ok es ∧
      es.map Prod.fst = fields.map (fun p => Val.vstr p.1) ∧
      fieldsFromJsony clock schema tgt es = .ok fields := by
  induction fields with
  | nil =>
    refine ⟨[], ?_, rfl, ?_⟩
    · rw [fieldsToJsony.eq_def]
    · rw [fieldsFromJsony.eq_def]
  | cons hd tl ih =>
    obtain ⟨n, fv⟩ := hd
    rw [validFields] at hv
    cases hl : lookupTy schema n with
    | none => rw [hl] at hv; cases hv
    | some ty =>
      rw [hl] at hv
      simp only [Bool.and_eq_true] at hv
      have hx := H n ty fv hl (by simp) hv.1
      rw [rt] at hx
      obtain ⟨ev, hte, hfe⟩ : ∃ ev, toJsony ty tgt fv = .ok ev ∧
          fromJsony clock ty tgt ev = .ok fv := by
        cases hto : toJsony ty tgt fv with
        | ok y => rw [hto] at hx; exact ⟨y, rfl, hx⟩
        | error e => rw [hto] at hx; cases hx
      obtain ⟨es, h1, h2, h3⟩ := ih (fun m mty mv hm hmem hval =>
        H m mty mv hm (by simp [hmem]) hval) hv.2
      refine ⟨(Val.vstr n, ev) :: es, ?_, by simp [h2], ?_⟩
      · rw [fieldsToJsony.eq_def]
        dsimp only
        rw [hl]
        dsimp only
        rw [hte]
        dsimp only
        rw [h1]
      · rw [fieldsFromJsony.eq_def]
        dsimp only
        rw [hl]
        dsimp only
        rw [hfe]
        dsimp only
        rw [h3]

theorem toJsony_none (t : Ty) (tgt : Target) : toJsony t tgt .none = .ok .none := by
  rw [toJsony.eq_def]
  cases t <;> try rfl
  case tlist p d => cases p <;> rfl
  case ttuple p d => cases p <;> rfl
  case tdict p d =>
    cases p with
    | none => rfl
    | some q => obtain ⟨a, b⟩ := q; rfl
  case tdefaultdict p d =>
    cases p with
    | none => rfl
    | some q => obtain ⟨a, b⟩ := q; rfl

theorem fromJsony_none (clock : DT) (t : Ty) (src : Target) :
    fromJsony clock t src .none = .ok .none := by
  rw [fromJsony.eq_def]
  cases t <;> try rfl
  case tlist p d => cases p <;> rfl
  case ttuple p d => cases p <;> rfl
  case tdict p d =>
    cases p with
    | none => rfl
    | some q => obtain ⟨a, b⟩ := q; rfl
  case tdefaultdict p d =>
    cases p with
    | none => rfl
    | some q => obtain ⟨a, b⟩ := q; rfl

theorem rt_none (clock : DT) (t : Ty) (tgt : Target) : rt clock t tgt .none = .ok .none := by
  rw [rt, toJsony_none]
  dsimp only
  rw [fromJsony_none]

theorem validFields_names {strict : Bool} {schema : List (String × Ty)}
    {fields : List (String × Val)} (h : validFields strict schema fields = true) :
    ∀ n ∈ fields.map Prod.fst, n ∈ schema.map Prod.fst := by
  induction fields with
  | nil => simp
  | cons hd tl ih =>
    obtain ⟨n, fv⟩ := hd
    rw [validFields] at h
    cases hl : lookupTy schema n with
    | none => rw [hl] at h; cases h
    | some ty =>
      rw [hl] at h
      simp only [Bool.and_eq_true] at h
      intro m hm
      simp only [List.map_cons, List.mem_cons] at hm
      rcases hm with rfl | hm
      · exact lookupTy_mem_name hl
      · exact ih h.2 m hm

theorem rtAux : ∀ (N : Nat) (t : Ty), sizeOf t ≤ N → ∀ (tgt : Target) (clock : DT) (v : Val),
    validWith true t v = true → rt clock t tgt v = .ok v := by
  intro N
  induction N with
  | zero =>
    intro t ht tgt clock v hv
    exfalso
    cases t <;> simp at ht
  | succ N ih =>
    intro t ht tgt clock v hv
    cases t with
    | tint d =>
      cases v
      case none => exact rt_none clock _ tgt
      case vint n =>
        have ht1 : toJsony (.tint d) tgt (.vint n) = .ok (.vint n) := by
          rw [toJsony.eq_def]
          rfl
        have ht2 : fromJsony clock (.tint d) tgt (.vint n) = .ok (.vint n) := by
          rw [fromJsony.eq_def]
          rfl
        rw [rt, ht1]
        dsimp only
        exact ht2
      case vbool b =>
        have ht1 : toJsony (.tint d) tgt (.vbool b) = .ok (.vbool b) := by
          rw [toJsony.eq_def]
          rfl
        have ht2 : fromJsony clock (.tint d) tgt (.vbool b) = .ok (.vbool b) := by
          rw [fromJsony.eq_def]
          rfl
        rw [rt, ht1]
        dsimp only
        exact ht2
      all_goals (exfalso; rw [validWith.eq_def] at hv; simp [isinstance] at hv)
    | tstr d =>
      cases v
      case none => exact rt_none clock _ tgt
      case vstr s =>
        have ht1 : toJsony (.tstr d) tgt (.vstr s) = .ok (.vstr s) := by
          rw [toJsony.eq_def]
          rfl
        have ht2 : fromJsony clock (.tstr d) tgt (.vstr s) = .ok (.vstr s) := by
          rw [fromJsony.eq_def]
          rfl
        rw [rt, ht1]
        dsimp only
        exact ht2
      all_goals (exfalso; rw [validWith.eq_def] at hv; simp [isinstance] at hv)
    | tbool d =>
      cases v
      case none => exact rt_none clock _ tgt
      case vbool b =>
        have ht1 : toJsony (.tbool d) tgt (.vbool b) = .ok (.vbool b) := by
          rw [toJsony.eq_def]
          rfl
        have ht2 : fromJsony clock (.tbool d) tgt (.vbool b) = .ok (.vbool b) := by
          rw [fromJsony.eq_def]
          rfl
        rw [rt, ht1]
        dsimp only
        exact ht2
      all_goals (exfalso; rw [validWith.eq_def] at hv; simp [isinstance] at hv)
    | tfloat d =>
      cases v
      case none => exact rt_none clock _ tgt
      case vfloat q =>
        have ht1 : toJsony (.tfloat d) tgt (.vfloat q) = .ok (.vfloat q) := by
          rw [toJsony.eq_def]
          rfl
        have ht2 : fromJsony clock (.tfloat d) tgt (.vfloat q) = .ok (.vfloat q) := by
          rw [fromJsony.eq_def]
          rfl
        rw [rt, ht1]
        dsimp only
        exact ht2
      all_goals (exfalso; rw [validWith.eq_def] at hv; simp [isinstance] at hv)
    | tany d =>
      have ht1 : toJsony (.tany d) tgt v = .ok v := by
        rw [toJsony.eq_def]
        cases v <;> rfl
      have ht2 : fromJsony clock (.tany d) tgt v = .ok v := by
        rw [fromJsony.eq_def]
        cases v <;> rfl
      rw [rt, ht1]
      dsimp only
      exact ht2
    | tpath d =>
      cases v
      case none => exact rt_none clock _ tgt
      case vpath s =>
        have ht1 : toJsony (.tpath d) tgt (.vpath s) = .ok (.vstr s) := by
          rw [toJsony.eq_def]
          rfl
        have ht2 : fromJsony clock (.tpath d) tgt (.vstr s) = .ok (.vpath s) := by
          rw [fromJsony.eq_def]
          rfl
        rw [rt, ht1]
        dsimp only
        exact ht2
      all_goals (exfalso; rw [validWith.eq_def] at hv; simp [isinstance] at hv)
    | tbytes d =>
      cases v
      case none => exact rt_none clock _ tgt
      case vbytes bs =>
        rw [validWith.eq_def] at hv
        dsimp only at hv
        have hall : ∀ b ∈ bs, b < 256 := by simpa using hv
        cases tgt with
        | json =>
          have ht1 : toJsony (.tbytes d) .json (.vbytes bs) =
              .ok (.vstr (String.mk (b85encode bs))) := by
            rw [toJsony.eq_def]
            rfl
          have ht2 : fromJsony clock (.tbytes d) .json (.vstr (String.mk (b85encode bs))) =
              .ok (.vbytes bs) := by
            rw [fromJsony.eq_def]
            dsimp only [bytesFromJsony]
            rw [b85_roundtrip bs hall]
          rw [rt, ht1]
          dsimp only
          exact ht2
        | bson =>
          have ht1 : toJsony (.tbytes d) .bson (.vbytes bs) = .ok (.vbytes bs) := by
            rw [toJsony.eq_def]
            rfl
          have ht2 : fromJsony clock (.tbytes d) .bson (.vbytes bs) = .ok (.vbytes bs) := by
            rw [fromJsony.eq_def]
            rfl
          rw [rt, ht1]
          dsimp only
          exact ht2
      all_goals (exfalso; rw [validWith.eq_def] at hv; simp at hv)
    | tdatetime d =>
      cases v
      case none => exact rt_none clock _ tgt
      case vdt dt =>
        rw [validWith.eq_def] at hv
        dsimp only at hv
        cases tgt with
        | json =>
          have ht1 : toJsony (.tdatetime d) .json (.vdt dt) = .ok (.vstr (dtStr dt)) := by
            rw [toJsony.eq_def]
            rfl
          have ht2 : fromJsony clock (.tdatetime d) .json (.vstr (dtStr dt)) =
              .ok (.vdt dt) := by
            rw [fromJsony.eq_def]
            dsimp only [datetimeFromJsony]
            rw [fromiso_dtStr dt hv]
          rw [rt, ht1]
          dsimp only
          exact ht2
        | bson =>
          have ht1 : toJsony (.tdatetime d) .bson (.vdt dt) = .ok (.vdt dt) := by
            rw [toJsony.eq_def]
            rfl
          have ht2 : fromJsony clock (.tdatetime d) .bson (.vdt dt) = .ok (.vdt dt) := by
            rw [fromJsony.eq_def]
            rfl
          rw [rt, ht1]
          dsimp only
          exact ht2
      all_goals (exfalso; rw [validWith.eq_def] at hv; simp at hv)
    | tlist p d =>
      cases p with
      | none =>
        cases v
        case none => exact rt_none clock _ tgt
        case vlist xs =>
          have ht1 : toJsony (.tlist Option.none d) tgt (.vlist xs) = .ok (.vlist xs) := by
            rw [toJsony.eq_def]
            dsimp only
            rw [anyMapList_id]
          have ht2 : fromJsony clock (.tlist Option.none d) tgt (.vlist xs) =
              .ok (.vlist xs) := by
            rw [fromJsony.eq_def]
            dsimp only
            rw [anyMapList_id]
          rw [rt, ht1]
          dsimp only
          exact ht2
        all_goals (exfalso; rw [validWith.eq_def] at hv; simp at hv)
      | some pt =>
        cases v
        case none => exact rt_none clock _ tgt
        case vlist xs =>
          rw [validWith.eq_def] at hv
          dsimp only at hv
          have hpt : sizeOf pt ≤ N := by
            simp at ht
            omega
          obtain ⟨ys, h1, h2⟩ := listRT clock pt tgt xs
            (fun x _ hvx => ih pt hpt tgt clock x hvx) hv
          have ht1 : toJsony (.tlist (some pt) d) tgt (.vlist xs) = .ok (.vlist ys) := by
            rw [toJsony.eq_def]
            dsimp only
            rw [h1]
          have ht2 : fromJsony clock (.tlist (some pt) d) tgt (.vlist ys) =
              .ok (.vlist xs) := by
            rw [fromJsony.eq_def]
            dsimp only
            rw [h2]
          rw [rt, ht1]
          dsimp only
          exact ht2
        all_goals (exfalso; rw [validWith.eq_def] at hv; simp at hv)
    | tdict p d =>
      cases p with
      | none =>
        cases v
        case none => exact rt_none clock _ tgt
        case vdict es =>
          have ht1 : toJsony (.tdict Option.none d) tgt (.vdict es) = .ok (.vdict es) := by
            rw [toJsony.eq_def]
            dsimp only
            rw [anyMapPairs_id]
          have ht2 : fromJsony clock (.tdict Option.none d) tgt (.vdict es) =
              .ok (.vdict es) := by
            rw [fromJsony.eq_def]
            dsimp only
            rw [anyMapPairs_id]
          rw [rt, ht1]
          dsimp only
          exact ht2
        all_goals (exfalso; rw [validWith.eq_def] at hv; simp at hv)
      | some q =>
        obtain ⟨kt, vt⟩ := q
        cases v
        case none => exact rt_none clock _ tgt
        case vdict es =>
          rw [validWith.eq_def] at hv
          dsimp only at hv
          have hkt : sizeOf kt ≤ N := by
            simp at ht
            omega
          have hvt : sizeOf vt ≤ N := by
            simp at ht
            omega
          obtain ⟨ys, h1, h2⟩ := pairsRT clock kt vt tgt es
            (fun k hvk => ih kt hkt tgt clock k hvk)
            (fun w hvw => ih vt hvt tgt clock w hvw) hv
          have ht1 : toJsony (.tdict (some (kt, vt)) d) tgt (.vdict es) = .ok (.vdict ys) := by
            rw [toJsony.eq_def]
            dsimp only
            rw [h1]
          have ht2 : fromJsony clock (.tdict (some (kt, vt)) d) tgt (.vdict ys) =
              .ok (.vdict es) := by
            rw [fromJsony.eq_def]
            dsimp only
            rw [h2]
          rw [rt, ht1]
          dsimp only
          exact ht2
        all_goals (exfalso; rw [validWith.eq_def] at hv; simp at hv)
    | tdefaultdict p d =>
      cases p with
      | none =>
        cases v
        case none => exact rt_none clock _ tgt
        case vdict es =>
          have ht1 : toJsony (.tdefaultdict Option.none d) tgt (.vdict es) =
              .ok (.vdict es) := by
            rw [toJsony.eq_def]
            dsimp only
            rw [anyMapPairs_id]
          have ht2 : fromJsony clock (.tdefaultdict Option.none d) tgt (.vdict es) =
              .ok (.vdict es) := by
            rw [fromJsony.eq_def]
            dsimp only
            rw [anyMapPairs_id]
          rw [rt, ht1]
          dsimp only
          exact ht2
        all_goals (exfalso; rw [validWith.eq_def] at hv; simp at hv)
      | some q =>
        obtain ⟨kt, vt⟩ := q
        cases v
        case none => exact rt_none clock _ tgt
        case vdict es =>
          rw [validWith.eq_def] at hv
          dsimp only at hv
          have hkt : sizeOf kt ≤ N := by
            simp at ht
            omega
          have hvt : sizeOf vt ≤ N := by
            simp at ht
            omega
          obtain ⟨ys, h1, h2⟩ := pairsRT clock kt vt tgt es
            (fun k hvk => ih kt hkt tgt clock k hvk)
            (fun w hvw => ih vt hvt tgt clock w hvw) hv
          have ht1 : toJsony (.tdefaultdict (some (kt, vt)) d) tgt (.vdict es) =
              .ok (.vdict ys) := by
            rw [toJsony.eq_def]
            dsimp only
            rw [h1]
          have ht2 : fromJsony clock (.tdefaultdict (some (kt, vt)) d) tgt (.vdict ys) =
              .ok (.vdict es) := by
            rw [fromJsony.eq_def]
            dsimp only
            rw [h2]
          rw [rt, ht1]
          dsimp only
          exact ht2
        all_goals (exfalso; rw [validWith.eq_def] at hv; simp at hv)
    | ttuple p d =>
      cases p with
      | none =>
        cases v
        case none => exact rt_none clock _ tgt
        case vtuple xs =>
          have ht1 : toJsony (.ttuple Option.none d) tgt (.vtuple xs) = .ok (.vlist xs) := by
            rw [toJsony.eq_def]
            dsimp only [tupleElems]
            rw [anyMapList_id]
          have ht2 : fromJsony clock (.ttuple Option.none d) tgt (.vlist xs) =
              .ok (.vtuple xs) := by
            rw [fromJsony.eq_def]
            dsimp only [tupleElems]
            rw [anyMapList_id]
          rw [rt, ht1]
          dsimp only
          exact ht2
        all_goals (exfalso; rw [validWith.eq_def] at hv; simp at hv)
      | some ps =>
        cases v
        case none => exact rt_none clock _ tgt
        case vtuple xs =>
          rw [validWith.eq_def] at hv
          dsimp only at hv
          simp only [Bool.and_eq_true, decide_eq_true_eq] at hv
          have hps : ∀ q ∈ ps, sizeOf q ≤ N := by
            intro q hq
            have hlt := List.sizeOf_lt_of_mem hq
            simp at ht
            omega
          obtain ⟨ys, h1, h2, h3⟩ := tupleRT clock ps tgt xs
            (fun q hq x hvx => ih q (hps q hq) tgt clock x hvx) hv.1 hv.2
          have ht1 : toJsony (.ttuple (some ps) d) tgt (.vtuple xs) = .ok (.vlist ys) := by
            rw [toJsony.eq_def]
            dsimp only [tupleElems]
            rw [if_pos hv.1, h1]
          have ht2 : fromJsony clock (.ttuple (some ps) d) tgt (.vlist ys) =
              .ok (.vtuple xs) := by
            rw [fromJsony.eq_def]
            dsimp only [tupleElems]
            rw [if_pos (by rw [h2, hv.1]), h3]
          rw [rt, ht1]
          dsimp only
          exact ht2
        all_goals (exfalso; rw [validWith.eq_def] at hv; simp at hv)
    | tstruct schema d =>
      cases v
      case none => exact rt_none clock _ tgt
      case vstruct fields =>
        rw [validWith.eq_def] at hv
        dsimp only at hv
        simp only [Bool.and_eq_true] at hv
        obtain ⟨⟨⟨hnodS, hnodF⟩, hvf⟩, hall⟩ := hv
        have hbound : ∀ n ty, lookupTy schema n = some ty → sizeOf ty ≤ N := by
          intro n ty hl
          have := sizeOfLookupTy hl
          simp at ht
          omega
        obtain ⟨es, h1, h2, h3⟩ := fieldsRT clock schema tgt fields
          (fun n ty fv hl _ hvx => ih ty (hbound n ty hl) tgt clock fv hvx) hvf
        have hsn : structNew clock schema fields = .ok fields := by
          apply structNew_id
          · exact (namesNodup_iff _).mp hnodS
          · exact (namesNodup_iff _).mp hnodF
          · exact validFields_names hvf
          · intro q hq
            have hq2 := List.all_eq_true.mp hall q hq
            simp only [Bool.or_eq_true] at hq2
            rcases hq2 with hc | hm
            · left
              simpa using hc
            · right
              exact hm
        have ht1 : toJsony (.tstruct schema d) tgt (.vstruct fields) = .ok (.vdict es) := by
          rw [toJsony.eq_def]
          dsimp only
          rw [h1]
        have ht2 : fromJsony clock (.tstruct schema d) tgt (.vdict es) =
            .ok (.vstruct fields) := by
          rw [fromJsony.eq_def]
          dsimp only
          rw [h3]
          dsimp only
          rw [hsn]
        rw [rt, ht1]
        dsimp only
        exact ht2
      all_goals (exfalso; rw [validWith.eq_def] at hv; simp at hv)

theorem checkKwargs_ok {rem : List String} {kwargs fs : List (String × Val)}
    {rem2 : List String} (hnod : rem.Nodup)
    (h : checkKwargs rem kwargs = .ok (fs, rem2)) :
    fs = kwargs ∧ ∀ m, m ∈ rem2 ↔ (m ∈ rem ∧ m ∉ kwargs.map Prod.fst) := by
  induction kwargs generalizing rem fs with
  | nil =>
    rw [checkKwargs] at h
    cases h
    exact ⟨rfl, by simp⟩
  | cons hd tl ih =>
    obtain ⟨k, v⟩ := hd
    rw [checkKwargs] at h
    by_cases hc : rem.contains k = true
    · rw [if_pos hc] at h
      cases hrec : checkKwargs (rem.erase k) tl with
      | error e => rw [hrec] at h; cases h
      | ok pr =>
        obtain ⟨fs2, rem3⟩ := pr
        rw [hrec] at h
        cases h
        obtain ⟨hfs, hch⟩ := ih (hnod.erase k) hrec
        subst hfs
        refine ⟨rfl, ?_⟩
        intro m
        rw [hch m, hnod.mem_erase_iff]
        constructor
        · rintro ⟨⟨hne, hmr⟩, hmn⟩
          exact ⟨hmr, by simp [hne, hmn]⟩
        · rintro ⟨hmr, hmn⟩
          simp only [List.map_cons, List.mem_cons, not_or] at hmn
          exact ⟨⟨hmn.1, hmr⟩, hmn.2⟩
    · rw [if_neg hc] at h
      cases h

theorem checkKwargs_unknown {rem : List String} {kwargs : List (String × Val)}
    (h : ∃ n ∈ kwargs.map Prod.fst, n ∉ rem) :
    ∃ e, checkKwargs rem kwargs = .error e ∧ e = Err.unknownField := by
  induction kwargs generalizing rem with
  | nil => simp at h
  | cons hd tl ih =>
    obtain ⟨k, v⟩ := hd
    rw [checkKwargs]
    by_cases hc : rem.contains k = true
    · obtain ⟨n, hn, hnr⟩ := h
      simp only [List.map_cons, List.mem_cons] at hn
      have hbad : ∃ n ∈ tl.map Prod.fst, n ∉ rem.erase k := by
        rcases hn with rfl | hn
        · exact absurd (by simpa using hc) hnr
        · refine ⟨n, hn, ?_⟩
          intro hmem
          exact hnr (List.mem_of_mem_erase hmem)
      obtain ⟨e, he, rfl⟩ := ih hbad
      rw [if_pos hc, he]
      exact ⟨_, rfl, rfl⟩
    · rw [if_neg hc]
      exact ⟨_, rfl, rfl⟩

theorem lookupVal_isSome_mem {ds : List (String × Val)} {n : String} {w : Val}
    (h : lookupVal ds n = some w) : n ∈ ds.map Prod.fst := by
  induction ds with
  | nil => simp [lookupVal] at h
  | cons hd tl ih =>
    obtain ⟨m, v⟩ := hd
    rw [lookupVal] at h
    split at h
    · simp_all
    · simp only [List.map_cons, List.mem_cons]
      exact Or.inr (ih h)

theorem fillDefaults_names {clock : DT} {schema : List (String × Ty)} {rem : List String}
    {ds : List (String × Val)} (h : fillDefaults clock schema rem = .ok ds) :
    ∀ x ∈ ds.map Prod.fst, x ∈ schema.map Prod.fst := by
  induction schema generalizing ds with
  | nil =>
    rw [fillDefaults] at h
    cases h
    simp
  | cons hd tl ih =>
    obtain ⟨m, tym⟩ := hd
    rw [fillDefaults] at h
    by_cases hc : rem.contains m = true
    · rw [if_pos hc] at h
      rcases hdf : dfltOf tym with _ | _ | _ | _ | dv0 <;> rw [hdf] at h <;> dsimp only at h
      · cases h
      · -- EMPTY policy
        cases hdv : default_value clock tym with
        | error e => rw [hdv] at h; cases h
        | ok dv =>
          rw [hdv] at h
          cases hrec : fillDefaults clock tl rem with
          | error e => rw [hrec] at h; cases h
          | ok tail =>
            rw [hrec] at h
            cases h
            intro x hx
            simp only [List.map_cons, List.mem_cons] at hx ⊢
            rcases hx with rfl | hx
            · exact Or.inl rfl
            · exact Or.inr (ih hrec x hx)
      · -- MISSING policy
        intro x hx
        exact List.mem_cons_of_mem _ (ih h x hx)
      · -- NOW policy
        cases hdv : default_value clock tym with
        | error e => rw [hdv] at h; cases h
        | ok dv =>
          rw [hdv] at h
          cases hrec : fillDefaults clock tl rem with
          | error e => rw [hrec] at h; cases h
          | ok tail =>
            rw [hrec] at h
            cases h
            intro x hx
            simp only [List.map_cons, List.mem_cons] at hx ⊢
            rcases hx with rfl | hx
            · exact Or.inl rfl
            · exact Or.inr (ih hrec x hx)
      · -- concrete default
        cases hdv : default_value clock tym with
        | error e => rw [hdv] at h; cases h
        | ok dv =>
          rw [hdv] at h
          cases hrec : fillDefaults clock tl rem with
          | error e => rw [hrec] at h; cases h
          | ok tail =>
            rw [hrec] at h
            cases h
            intro x hx
            simp only [List.map_cons, List.mem_cons] at hx ⊢
            rcases hx with rfl | hx
            · exact Or.inl rfl
            · exact Or.inr (ih hrec x hx)
    · rw [if_neg hc] at h
      intro x hx
      exact List.mem_cons_of_mem _ (ih h x hx)

theorem fillDefaults_lookup {clock : DT} {schema : List (String × Ty)} {rem : List String}
    {ds : List (String × Val)} (h : fillDefaults clock schema rem = .ok ds)
    (hnod : (schema.map Prod.fst).Nodup) :
    ∀ n ty, (n, ty) ∈ schema → n ∈ rem →
      (dfltOf ty).isRequired = false ∧
      ((dfltOf ty).isMissing = true → lookupVal ds n = Option.none) ∧
      (∀ dv0, dfltOf ty = .val dv0 → lookupVal ds n = some dv0) ∧
      ((dfltOf ty).isEmpty = true → ∃ dv, tyNew clock ty = .ok dv ∧ lookupVal ds n = some dv) := by
  induction schema generalizing ds with
  | nil =>
    intro n ty hmem
    simp at hmem
  | cons hd tl ih =>
    obtain ⟨m, tym⟩ := hd
    have hcons : m ∉ List.map Prod.fst tl ∧ (List.map Prod.fst tl).Nodup :=
      List.nodup_cons.mp hnod
    intro n ty hmem hrem
    rw [fillDefaults] at h
    simp only [List.mem_cons] at hmem
    by_cases hc : rem.contains m = true
    · rw [if_pos hc] at h
      rcases hdf : dfltOf tym with _ | _ | _ | _ | dv0 <;> rw [hdf] at h <;> dsimp only at h
      · cases h
      · -- EMPTY policy
        cases hdv : default_value clock tym with
        | error e => rw [hdv] at h; cases h
        | ok dv =>
          rw [hdv] at h
          cases hrec : fillDefaults clock tl rem with
          | error e => rw [hrec] at h; cases h
          | ok tail =>
            rw [hrec] at h
            cases h
            rcases hmem with heq | hmem
            · obtain ⟨rfl, rfl⟩ := Prod.mk.inj heq
              rw [default_value.eq_def, hdf] at hdv
              dsimp only at hdv
              refine ⟨by simp [hdf, Dflt.isRequired], ?_, ?_, ?_⟩
              · intro hmiss
                rw [hdf] at hmiss
                cases hmiss
              · intro dv0 hval
                rw [hval] at hdf
                cases hdf
              · intro hemp
                exact ⟨dv, hdv, by simp [lookupVal]⟩
            · have hne : n ≠ m := by
                intro he
                subst he
                exact hcons.1 (List.mem_map.mpr ⟨(n, ty), hmem, rfl⟩)
              simp only [lookupVal, if_neg (Ne.symm hne)]
              exact ih hrec hcons.2 n ty hmem hrem
      · -- MISSING policy: nothing inserted for the head
        rcases hmem with heq | hmem
        · obtain ⟨rfl, rfl⟩ := Prod.mk.inj heq
          refine ⟨by simp [hdf, Dflt.isRequired], fun _ => ?_, ?_, ?_⟩
          · cases hlv : lookupVal ds n with
            | none => rfl
            | some w =>
              exact absurd (fillDefaults_names h n (lookupVal_isSome_mem hlv)) hcons.1
          · intro dv0 hval
            rw [hval] at hdf
            cases hdf
          · intro hemp
            rw [hdf] at hemp
            cases hemp
        · exact ih h hcons.2 n ty hmem hrem
      · -- NOW policy
        cases hdv : default_value clock tym with
        | error e => rw [hdv] at h; cases h
        | ok dv =>
          rw [hdv] at h
          cases hrec : fillDefaults clock tl rem with
          | error e => rw [hrec] at h; cases h
          | ok tail =>
            rw [hrec] at h
            cases h
            rcases hmem with heq | hmem
            · obtain ⟨rfl, rfl⟩ := Prod.mk.inj heq
              refine ⟨by simp [hdf, Dflt.isRequired], ?_, ?_, ?_⟩
              · intro hmiss
                rw [hdf] at hmiss
                cases hmiss
              · intro dv0 hval
                rw [hval] at hdf
                cases hdf
              · intro hemp
                rw [hdf] at hemp
                cases hemp
            · have hne : n ≠ m := by
                intro he
                subst he
                exact hcons.1 (List.mem_map.mpr ⟨(n, ty), hmem, rfl⟩)
              simp only [lookupVal, if_neg (Ne.symm hne)]
              exact ih hrec hcons.2 n ty hmem hrem
      · -- concrete default
        cases hdv : default_value clock tym with
        | error e => rw [hdv] at h; cases h
        | ok dv =>
          rw [hdv] at h
          cases hrec : fillDefaults clock tl rem with
          | error e => rw [hrec] at h; cases h
          | ok tail =>
            rw [hrec] at h
            cases h
            rcases hmem with heq | hmem
            · obtain ⟨rfl, rfl⟩ := Prod.mk.inj heq
              rw [default_value.eq_def, hdf] at hdv
              dsimp only at hdv
              refine ⟨by simp [hdf, Dflt.isRequired], ?_, ?_, ?_⟩
              · intro hmiss
                rw [hdf] at hmiss
                cases hmiss
              · intro dv1 hval
                rw [hval] at hdf
                cases hdf
                cases hdv
                simp [lookupVal]
              · intro hemp
                rw [hdf] at hemp
                cases hemp
            · have hne : n ≠ m := by
                intro he
                subst he
                exact hcons.1 (List.mem_map.mpr ⟨(n, ty), hmem, rfl⟩)
              simp only [lookupVal, if_neg (Ne.symm hne)]
              exact ih hrec hcons.2 n ty hmem hrem
    · rw [if_neg hc] at h
      rcases hmem with heq | hmem
      · obtain ⟨rfl, rfl⟩ := Prod.mk.inj heq
        exact absurd (by simpa using hrem) (by simpa using hc)
      · exact ih h hcons.2 n ty hmem hrem

theorem lookupVal_append_right {fs : List (String × Val)} {n : String}
    (h : n ∉ fs.map Prod.fst) (ds : List (String × Val)) :
    lookupVal (fs ++ ds) n = lookupVal ds n := by
  induction fs with
  | nil => rfl
  | cons hd tl ih =>
    obtain ⟨m, v⟩ := hd
    simp only [List.map_cons, List.mem_cons, not_or] at h
    rw [List.cons_append, lookupVal, if_neg (Ne.symm h.1)]
    exact ih h.2

theorem lookupVal_append_left {fs : List (String × Val)} {n : String} {v : Val}
    (h : lookupVal fs n = some v) (ds : List (String × Val)) :
    lookupVal (fs ++ ds) n = some v := by
  induction fs with
  | nil => rw [lookupVal] at h; cases h
  | cons hd tl ih =>
    obtain ⟨m, w⟩ := hd
    by_cases hc : m = n
    · rw [lookupVal, if_pos hc] at h
      rw [List.cons_append, lookupVal, if_pos hc]
      exact h
    · rw [lookupVal, if_neg hc] at h
      rw [List.cons_append, lookupVal, if_neg hc]
      exact ih h

theorem lookupVal_mem_isSome {ds : List (String × Val)} {n : String}
    (h : n ∈ ds.map Prod.fst) : ∃ v, lookupVal ds n = some v := by
  induction ds with
  | nil => simp at h
  | cons hd tl ih =>
    obtain ⟨m, w⟩ := hd
    by_cases hc : m = n
    · exact ⟨w, by rw [lookupVal, if_pos hc]⟩
    · simp only [List.map_cons, List.mem_cons] at h
      rcases h with rfl | h
      · exact absurd rfl hc
      · obtain ⟨v, hv⟩ := ih h
        exact ⟨v, by rw [lookupVal, if_neg hc, hv]⟩

theorem lookupTy_isSome_of_mem {schema : List (String × Ty)} {n : String} {ty : Ty}
    (h : (n, ty) ∈ schema) : ∃ ty2, lookupTy schema n = some ty2 := by
  induction schema with
  | nil => simp at h
  | cons hd tl ih =>
    obtain ⟨m, t2⟩ := hd
    by_cases hc : m = n
    · exact ⟨t2, by rw [lookupTy, if_pos hc]⟩
    · simp only [List.mem_cons] at h
      rcases h with heq | h
      · obtain ⟨rfl, rfl⟩ := Prod.mk.inj heq
        exact absurd rfl hc
      · obtain ⟨t3, ht⟩ := ih h
        exact ⟨t3, by rw [lookupTy, if_neg hc, ht]⟩

theorem lookupVal_setField (fs : List (String × Val)) (n m : String) (v : Val) :
    lookupVal (setField fs n v) m = if n = m then some v else lookupVal fs m := by
  induction fs with
  | nil => simp only [setField, lookupVal]
  | cons hd tl ih =>
    obtain ⟨k, w⟩ := hd
    by_cases hk : k = n
    · subst hk
      by_cases hc : k = m <;> simp [setField, lookupVal, hc]
    · by_cases hc : k = m
      · subst hc
        have hnm : ¬ (n = k) := fun he => hk he.symm
        simp [setField, lookupVal, hk, hnm]
      · simp [setField, lookupVal, hk, hc, ih]

theorem fieldsToJsony_keys {schema : List (String × Ty)} {tgt : Target}
    {fields : List (String × Val)} {es : List (Val × Val)}
    (h : fieldsToJsony schema tgt fields = .ok es) :
    es.map Prod.fst = fields.map (fun p => Val.vstr p.1) := by
  induction fields generalizing es with
  | nil =>
    rw [fieldsToJsony] at h
    cases h
    rfl
  | cons hd tl ih =>
    obtain ⟨n, fv⟩ := hd
    rw [fieldsToJsony] at h
    cases hl : lookupTy schema n with
    | none => rw [hl] at h; cases h
    | some ty =>
      rw [hl] at h
      dsimp only at h
      cases he : toJsony ty tgt fv with
      | error e => rw [he] at h; cases h
      | ok ev =>
        rw [he] at h
        dsimp only at h
        cases hr : fieldsToJsony schema tgt tl with
        | error e => rw [hr] at h; cases h
        | ok es2 =>
          rw [hr] at h
          dsimp only at h
          cases h
          simp [ih hr]

theorem fieldsFromJsony_names {clock : DT} {schema : List (String × Ty)} {src : Target}
    {es : List (Val × Val)} {ds : List (String × Val)}
    (h : fieldsFromJsony clock schema src es = .ok ds) :
    es.map Prod.fst = ds.map (fun p => Val.vstr p.1) := by
  induction es generalizing ds with
  | nil =>
    rw [fieldsFromJsony] at h
    cases h
    rfl
  | cons hd tl ih =>
    obtain ⟨k, ev⟩ := hd
    rw [fieldsFromJsony.eq_def] at h
    cases k with
    | vstr n =>
      dsimp only at h
      cases hl : lookupTy schema n with
      | none => rw [hl] at h; cases h
      | some ty =>
        rw [hl] at h
        dsimp only at h
        cases he : fromJsony clock ty src ev with
        | error e => rw [he] at h; cases h
        | ok dv =>
          rw [he] at h
          dsimp only at h
          cases hr : fieldsFromJsony clock schema src tl with
          | error e => rw [hr] at h; cases h
          | ok ds2 =>
            rw [hr] at h
            dsimp only at h
            cases h
            simp [ih hr]
    | none => dsimp only at h; cases h
    | vint x => dsimp only at h; cases h
    | vbool x => dsimp only at h; cases h
    | vfloat x => dsimp only at h; cases h
    | vbytes x => dsimp only at h; cases h
    | vdt x => dsimp only at h; cases h
    | vpath x => dsimp only at h; cases h
    | vlist x => dsimp only at h; cases h
    | vtuple x => dsimp only at h; cases h
    | vdict x => dsimp only at h; cases h
    | vstruct x => dsimp only at h; cases h

theorem fillDefaults_missingField {clock : DT} {schema : List (String × Ty)}
    {rem : List String} {n : String} {ty : Ty}
    (hwf : ∀ p ∈ schema, wfDflt clock p.2 = true)
    (hmem : (n, ty) ∈ schema) (hrem : n ∈ rem)
    (hreq : (dfltOf ty).isRequired = true) :
    fillDefaults clock schema rem = .error .missingField := by
  induction schema with
  | nil => simp at hmem
  | cons hd tl ih =>
    obtain ⟨m, tym⟩ := hd
    have ihw : ∀ p ∈ tl, wfDflt clock p.2 = true := fun p hp => hwf p (by simp [hp])
    simp only [List.mem_cons] at hmem
    rw [fillDefaults]
    by_cases hc : rem.contains m = true
    · rw [if_pos hc]
      rcases hdf : dfltOf tym with _ | _ | _ | _ | dv0 <;> dsimp only
      · have hmem2 : (n, ty) ∈ tl := by
          rcases hmem with heq | hmem2
          · obtain ⟨rfl, rfl⟩ := Prod.mk.inj heq
            rw [hdf] at hreq
            cases hreq
          · exact hmem2
        have hwfm := hwf (m, tym) (by simp)
        rw [wfDflt, hdf] at hwfm
        dsimp only at hwfm
        cases hdv : default_value clock tym with
        | error e => rw [hdv] at hwfm; cases hwfm
        | ok dv =>
          rw [ih ihw hmem2]
      · have hmem2 : (n, ty) ∈ tl := by
          rcases hmem with heq | hmem2
          · obtain ⟨rfl, rfl⟩ := Prod.mk.inj heq
            rw [hdf] at hreq
            cases hreq
          · exact hmem2
        exact ih ihw hmem2
      · have hmem2 : (n, ty) ∈ tl := by
          rcases hmem with heq | hmem2
          · obtain ⟨rfl, rfl⟩ := Prod.mk.inj heq
            rw [hdf] at hreq
            cases hreq
          · exact hmem2
        have hwfm := hwf (m, tym) (by simp)
        rw [wfDflt, hdf] at hwfm
        dsimp only at hwfm
        cases hdv : default_value clock tym with
        | error e => rw [hdv] at hwfm; cases hwfm
        | ok dv =>
          rw [ih ihw hmem2]
      · have hmem2 : (n, ty) ∈ tl := by
          rcases hmem with heq | hmem2
          · obtain ⟨rfl, rfl⟩ := Prod.mk.inj heq
            rw [hdf] at hreq
            cases hreq
          · exact hmem2
        have hwfm := hwf (m, tym) (by simp)
        rw [wfDflt, hdf] at hwfm
        dsimp only at hwfm
        cases hdv : default_value clock tym with
        | error e => rw [hdv] at hwfm; cases hwfm
        | ok dv =>
          rw [ih ihw hmem2]
    · rw [if_neg hc]
      have hmem2 : (n, ty) ∈ tl := by
        rcases hmem with heq | hmem2
        · obtain ⟨rfl, rfl⟩ := Prod.mk.inj heq
          exact absurd (by simpa using hrem) (by simpa using hc)
        · exact hmem2
      exact ih ihw hmem2

theorem structNew_spec {clock : DT} {schema : List (String × Ty)}
    {kwargs : List (String × Val)} {fs : List (String × Val)}
    (hnod : (schema.map Prod.fst).Nodup)
    (h : structNew clock schema kwargs = .ok fs) :
    ∃ rem2 ds, checkKwargs (schema.map Prod.fst) kwargs = .ok (kwargs, rem2) ∧
      (∀ m, m ∈ rem2 ↔ (m ∈ schema.map Prod.fst ∧ m ∉ kwargs.map Prod.fst)) ∧
      fillDefaults clock schema rem2 = .ok ds ∧ fs = kwargs ++ ds := by
  rw [structNew] at h
  cases hck : checkKwargs (schema.map Prod.fst) kwargs with
  | error e => rw [hck] at h; cases h
  | ok pr =>
    obtain ⟨fs0, rem2⟩ := pr
    rw [hck] at h
    dsimp only at h
    obtain ⟨rfl, hch⟩ := checkKwargs_ok hnod hck
    cases hfd : fillDefaults clock schema rem2 with
    | error e => rw [hfd] at h; cases h
    | ok ds =>
      rw [hfd] at h
      cases h
      exact ⟨rem2, ds, rfl, hch, hfd, rfl⟩

theorem structNew_lookup {clock : DT} {schema : List (String × Ty)}
    {kwargs fs : List (String × Val)}
    (hnod : namesNodup (schema.map Prod.fst) = true)
    (h : structNew clock schema kwargs = .ok fs) :
    ∀ n ty, (n, ty) ∈ schema → n ∉ kwargs.map Prod.fst →
      ((dfltOf ty).isMissing = true → lookupVal fs n = Option.none) ∧
      (∀ dv, dfltOf ty = .val dv → lookupVal fs n = some dv) ∧
      ((dfltOf ty).isEmpty = true → ∃ dv, tyNew clock ty = .ok dv ∧ lookupVal fs n = some dv) := by
  have hnod2 := (namesNodup_iff _).mp hnod
  obtain ⟨rem2, ds, hck, hch, hfd, rfl⟩ := structNew_spec hnod2 h
  intro n ty hmem hnk
  have hrem : n ∈ rem2 := (hch n).mpr ⟨List.mem_map.mpr ⟨(n, ty), hmem, rfl⟩, hnk⟩
  have H := fillDefaults_lookup hfd hnod2 n ty hmem hrem
  have hap : lookupVal (kwargs ++ ds) n = lookupVal ds n := lookupVal_append_right hnk ds
  refine ⟨fun hm => ?_, fun dv hv => ?_, fun he => ?_⟩
  · rw [hap]; exact H.2.1 hm
  · rw [hap]; exact H.2.2.1 dv hv
  · obtain ⟨dv, h1, h2⟩ := H.2.2.2 he
    exact ⟨dv, h1, by rw [hap]; exact h2⟩

theorem structNew_supplied {clock : DT} {schema : List (String × Ty)}
    {kwargs fs : List (String × Val)} {n : String} {v : Val}
    (hnod : namesNodup (schema.map Prod.fst) = true)
    (h : structNew clock schema kwargs = .ok fs)
    (hlk : lookupVal kwargs n = some v) :
    lookupVal fs n = some v := by
  obtain ⟨rem2, ds, hck, hch, hfd, rfl⟩ := structNew_spec ((namesNodup_iff _).mp hnod) h
  exact lookupVal_append_left hlk ds

theorem structNew_establishes_invariant {clock : DT} {schema : List (String × Ty)}
    {kwargs fs : List (String × Val)}
    (hnod : namesNodup (schema.map Prod.fst) = true)
    (h : structNew clock schema kwargs = .ok fs) :
    invariantB schema fs = true := by
  have hnod2 := (namesNodup_iff _).mp hnod
  obtain ⟨rem2, ds, hck, hch, hfd, hfs⟩ := structNew_spec hnod2 h
  rw [invariantB, List.all_eq_true]
  intro p hp
  by_cases hk : p.1 ∈ kwargs.map Prod.fst
  · obtain ⟨v, hv⟩ := lookupVal_mem_isSome hk
    subst hfs
    rw [lookupVal_append_left hv ds]
    simp
  · obtain ⟨n, ty⟩ := p
    have hrem : n ∈ rem2 := (hch n).mpr ⟨List.mem_map.mpr ⟨(n, ty), hp, rfl⟩, hk⟩
    have H := fillDefaults_lookup hfd hnod2 n ty hp hrem
    simp [H.1]

theorem dfltOf_withDflt (t : Ty) (d : Dflt) : dfltOf (withDflt t d) = d := by
  cases t <;> rfl

theorem tyKlass_withDflt (t : Ty) (d : Dflt) : tyKlass (withDflt t d) = tyKlass t := by
  cases t <;> rfl

theorem tyNew_withDflt (clock : DT) (t : Ty) (d : Dflt) :
    tyNew clock (withDflt t d) = tyNew clock t := by
  cases t <;> simp only [withDflt] <;> rw [tyNew.eq_def, tyNew.eq_def] <;> try rfl

theorem toJsony_withDflt (t : Ty) (d : Dflt) (tgt : Target) (v : Val) :
    toJsony (withDflt t d) tgt v = toJsony t tgt v := by
  cases t <;>
    try (cases v <;> simp only [withDflt] <;> rw [toJsony.eq_def, toJsony.eq_def] <;> rfl)
  all_goals rename_i p d0
  all_goals rcases p with _ | pp
  all_goals try obtain ⟨kt, vt⟩ := pp
  all_goals cases v <;> simp only [withDflt] <;> rw [toJsony.eq_def, toJsony.eq_def] <;> rfl

theorem fromJsony_withDflt (clock : DT) (t : Ty) (d : Dflt) (src : Target) (v : Val) :
    fromJsony clock (withDflt t d) src v = fromJsony clock t src v := by
  cases t <;>
    try (cases v <;> simp only [withDflt] <;> rw [fromJsony.eq_def, fromJsony.eq_def] <;> rfl)
  all_goals rename_i p d0
  all_goals rcases p with _ | pp
  all_goals try obtain ⟨kt, vt⟩ := pp
  all_goals cases v <;> simp only [withDflt] <;> rw [fromJsony.eq_def, fromJsony.eq_def] <;> rfl

/-- C1: For every descriptor and every value strictly valid under it (record
fields absent only under the `MISSING` policy), decoding the encoding with
either target returns the value unchanged — in particular timestamps (exact
to the second) and byte-strings (exact to the byte) round-trip.  Corrected:
under the specification's own validity notion (invariant (b)), which also
admits records omitting a defaulted field, the round trip returns the
default-filled record instead of the original (see the counterexample). -/
theorem c1_strict_roundtrip (t : Ty) (tgt : Target) (clock : DT) (v : Val)
    (hv : validStrict t v = true) : rt clock t tgt v = .ok v :=
  rtAux (sizeOf t) t le_rfl tgt clock v hv

/-- Witness for C1 at a datetime and a byte-string. -/
theorem c1_strict_roundtrip_witness :
    validStrict (Ty.tdatetime .required) (.vdt clock0) = true ∧
    rt clock0 (Ty.tdatetime .required) .json (.vdt clock0) = .ok (.vdt clock0) ∧
    rt clock0 (Ty.tbytes .required) .json (.vbytes [0, 255, 7]) = .ok (.vbytes [0, 255, 7]) :=
  ⟨by rw [validStrict, validWith.eq_def]; decide,
   c1_strict_roundtrip (Ty.tdatetime .required) .json clock0 (.vdt clock0)
     (by rw [validStrict, validWith.eq_def]; decide),
   c1_strict_roundtrip (Ty.tbytes .required) .json clock0 (.vbytes [0, 255, 7])
     (by rw [validStrict, validWith.eq_def]; decide)⟩

/-- Counterexample for C1 as stated: a record omitting a defaulted field is
valid under the specification's invariant (b) but round-trips to the
default-filled record. -/
theorem c1_counterexample :
    validB (Ty.tstruct [("age", Ty.tint (.val (.vint 0)))] .required) (.vstruct []) = true ∧
    rt clock0 (Ty.tstruct [("age", Ty.tint (.val (.vint 0)))] .required) .json (.vstruct [])
      = .ok (.vstruct [("age", Val.vint 0)]) ∧
    Val.vstruct [("age", Val.vint 0)] ≠ Val.vstruct [] := by
  refine ⟨?_, ?_, by simp⟩
  · simp [validB, validWith, validFields, namesNodup, dfltOf, Dflt.isRequired]
  · simp [rt, toJsony, fromJsony, fieldsToJsony, fieldsFromJsony, structNew, checkKwargs,
      fillDefaults, default_value, dfltOf]

/-- C2: Corrected — `Struct.__init__` fills a default for EVERY schema field
not supplied whose policy is not `MISSING`: `MISSING` ("absent") fields stay
unset and concrete defaults are stored, as the specification says, but a
field with the `EMPTY` ("empty-constructible") policy IS auto-filled at
construction with the zero-argument value `new()` rather than left unset
(see the counterexample). -/
theorem c2_construction_defaults {clock : DT} {schema : List (String × Ty)}
    {fs : List (String × Val)}
    (hnod : namesNodup (schema.map Prod.fst) = true)
    (h : structNew clock schema [] = .ok fs) :
    ∀ n ty, (n, ty) ∈ schema →
      ((dfltOf ty).isMissing = true → lookupVal fs n = Option.none) ∧
      (∀ dv, dfltOf ty = .val dv → lookupVal fs n = some dv) ∧
      ((dfltOf ty).isEmpty = true →
        ∃ dv, tyNew clock ty = .ok dv ∧ lookupVal fs n = some dv) := by
  intro n ty hmem
  exact structNew_lookup hnod h n ty hmem (by simp)

/-- Witness for C2: a `MISSING` field stays unset, a concrete default is
filled. -/
theorem c2_construction_defaults_witness :
    structNew clock0 [("a", Ty.tint .missing), ("b", Ty.tint (.val (.vint 7)))] []
      = .ok [("b", Val.vint 7)] ∧
    lookupVal [("b", Val.vint 7)] "a" = Option.none ∧
    lookupVal [("b", Val.vint 7)] "b" = some (Val.vint 7) := by
  have hsn : structNew clock0 [("a", Ty.tint .missing), ("b", Ty.tint (.val (.vint 7)))] []
      = .ok [("b", Val.vint 7)] := by
    simp [structNew, checkKwargs, fillDefaults, default_value, dfltOf]
  have H := c2_construction_defaults (by decide) hsn
  refine ⟨hsn, ?_, ?_⟩
  · exact (H "a" (Ty.tint .missing) (by simp)).1 rfl
  · exact (H "b" (Ty.tint (.val (.vint 7))) (by simp)).2.1 (Val.vint 7) rfl

/-- Counterexample for C2 as stated: an `EMPTY`-policy field omitted at
construction is auto-filled with the empty value, not left unset. -/
theorem c2_counterexample :
    structNew clock0 [("xs", Ty.tlist Option.none .empty)] [] = .ok [("xs", Val.vlist [])] ∧
    lookupVal [("xs", Val.vlist [])] "xs" = some (Val.vlist []) := by
  constructor
  · simp [structNew, checkKwargs, fillDefaults, default_value, dfltOf, tyNew]
  · simp [lookupVal]

/-- C3: Corrected — encoding a record emits exactly its present fields under
their names (absent fields are omitted, never emitted as null); but decoding
does NOT leave schema fields missing from the input unset: the decoded keys
are handed to the record factory (`Struct.__init__`), which fills defaults —
only a `MISSING`-policy field stays unset, while a field with a concrete
default is filled with it (see the counterexample). -/
theorem c3_encode_decode :
    (∀ (schema : List (String × Ty)) (tgt : Target) (fields : List (String × Val))
       (es : List (Val × Val)), fieldsToJsony schema tgt fields = .ok es →
       es.map Prod.fst = fields.map (fun p => Val.vstr p.1)) ∧
    (∀ (clock : DT) (schema : List (String × Ty)) (src : Target)
       (es : List (Val × Val)) (ds fs : List (String × Val)),
       namesNodup (schema.map Prod.fst) = true →
       fieldsFromJsony clock schema src es = .ok ds →
       structNew clock schema ds = .ok fs →
       ∀ n ty, (n, ty) ∈ schema → Val.vstr n ∉ es.map Prod.fst →
         ((dfltOf ty).isMissing = true → lookupVal fs n = Option.none) ∧
         (∀ dv, dfltOf ty = .val dv → lookupVal fs n = some dv)) := by
  constructor
  · intro schema tgt fields es h
    exact fieldsToJsony_keys h
  · intro clock schema src es ds fs hnod hdec hsn n ty hmem hkey
    have hnames := fieldsFromJsony_names hdec
    have hnk : n ∉ ds.map Prod.fst := by
      rw [hnames] at hkey
      intro hn
      obtain ⟨p, hp, hp1⟩ := List.mem_map.mp hn
      exact hkey (List.mem_map.mpr ⟨p, hp, by rw [hp1]⟩)
    have H := structNew_lookup hnod hsn n ty hmem hnk
    exact ⟨H.1, H.2.1⟩

/-- Witness for C3: encoding a one-field record emits exactly its key;
decoding an empty mapping fills the concrete default. -/
theorem c3_encode_decode_witness :
    ([(Val.vstr "age", Val.vint 3)].map Prod.fst
      = [("age", Val.vint 3)].map (fun p => Val.vstr p.1)) ∧
    lookupVal [("age", Val.vint 0)] "age" = some (Val.vint 0) := by
  constructor
  · exact c3_encode_decode.1 [("age", Ty.tint (.val (.vint 0)))] .json [("age", Val.vint 3)]
      [(Val.vstr "age", Val.vint 3)]
      (by simp [fieldsToJsony, lookupTy, toJsony, validate_class, isinstance])
  · exact (c3_encode_decode.2 clock0 [("age", Ty.tint (.val (.vint 0)))] .json [] []
      [("age", Val.vint 0)] (by decide)
      (by simp [fieldsFromJsony])
      (by simp [structNew, checkKwargs, fillDefaults, default_value, dfltOf])
      "age" (Ty.tint (.val (.vint 0))) (by simp) (by simp)).2 (Val.vint 0) rfl

/-- Counterexample for C3 as stated: the key `age` is absent from the input
mapping, yet the decoded record has it set (to the schema default). -/
theorem c3_counterexample :
    fromJsony clock0 (Ty.tstruct [("age", Ty.tint (.val (.vint 0)))] .required) .json (.vdict [])
      = .ok (.vstruct [("age", Val.vint 0)]) ∧
    lookupVal [("age", Val.vint 0)] "age" ≠ Option.none := by
  constructor
  · simp [fromJsony, fieldsFromJsony, structNew, checkKwargs, fillDefaults, default_value, dfltOf]
  · simp [lookupVal]

/-- C4: Confirmed — `Struct.__init__` raises `NameError` (the specification's
`UnknownFieldError`) for a keyword outside the schema, raises `TypeError`
(`MissingFieldError`) when a `REQUIRED`-policy field is not supplied (on a
schema whose exercisable defaults all succeed), and fills an omitted concrete
default; concretely, for schema `(name : Str required, age : Int default 0)`,
supplying only `name` yields `age = 0`, and an unknown keyword fails. -/
theorem c4_construction_errors :
    (∀ (clock : DT) (schema : List (String × Ty)) (kwargs : List (String × Val)),
       (∃ n ∈ kwargs.map Prod.fst, n ∉ schema.map Prod.fst) →
       structNew clock schema kwargs = .error .unknownField) ∧
    (∀ (clock : DT) (schema : List (String × Ty)) (kwargs : List (String × Val))
       (n : String) (ty : Ty),
       (schema.map Prod.fst).Nodup → (kwargs.map Prod.fst).Nodup →
       (∀ m ∈ kwargs.map Prod.fst, m ∈ schema.map Prod.fst) →
       (∀ p ∈ schema, wfDflt clock p.2 = true) →
       (n, ty) ∈ schema → n ∉ kwargs.map Prod.fst → (dfltOf ty).isRequired = true →
       structNew clock schema kwargs = .error .missingField) ∧
    structNew clock0 [("name", Ty.tstr .required), ("age", Ty.tint (.val (.vint 0)))]
      [("name", Val.vstr "Bo")] = .ok [("name", Val.vstr "Bo"), ("age", Val.vint 0)] ∧
    structNew clock0 [("name", Ty.tstr .required), ("age", Ty.tint (.val (.vint 0)))]
      [("name", Val.vstr "Bo"), ("unknown", Val.vint 1)] = .error .unknownField := by
  refine ⟨?_, ?_, ?_, ?_⟩
  · intro clock schema kwargs hbad
    obtain ⟨e, he, rfl⟩ := checkKwargs_unknown hbad
    rw [structNew, he]
  · intro clock schema kwargs n ty hnods hnodk hsub hwf hmem hnk hreq
    obtain ⟨rem2, hck, hch⟩ := checkKwargs_all (schema.map Prod.fst) kwargs hnods hsub hnodk
    have hrem : n ∈ rem2 := (hch n).mpr ⟨List.mem_map.mpr ⟨(n, ty), hmem, rfl⟩, hnk⟩
    rw [structNew, hck]
    dsimp only
    rw [fillDefaults_missingField hwf hmem hrem hreq]
  · simp [structNew, checkKwargs, fillDefaults, default_value, dfltOf]
  · simp [structNew, checkKwargs, fillDefaults, default_value, dfltOf]

/-- Witness for C4: an unknown keyword and a missing required field on
concrete schemas. -/
theorem c4_construction_errors_witness :
    structNew clock0 [("a", Ty.tint .required)] [("zz", Val.vint 5)] = .error .unknownField ∧
    structNew clock0 [("a", Ty.tint .required)] [] = .error .missingField := by
  constructor
  · exact c4_construction_errors.1 clock0 _ _ ⟨"zz", by simp, by simp⟩
  · exact c4_construction_errors.2.1 clock0 _ _ "a" (Ty.tint .required)
      (by simp) (by simp) (by simp)
      (by intro p hp; simp only [List.mem_singleton] at hp; subst hp; rfl)
      (by simp) (by simp) rfl

/-- C5: Confirmed — `Struct.__eq__` and `__hash__` are computed from
`_cmp_repr`, the schema-ordered tuple of (name, value-or-`MISSING`); it
depends only on what the field mapping looks up, never on insertion order,
so `Record(a=1, b=2)` and `Record(b=2, a=1)` have equal `_cmp_repr`. -/
theorem c5_cmp_repr_order :
    (∀ (schema : List (String × Ty)) (f1 f2 : List (String × Val)),
       (∀ n, lookupVal f1 n = lookupVal f2 n) → cmpRepr schema f1 = cmpRepr schema f2) ∧
    cmpRepr [("a", Ty.tint .required), ("b", Ty.tint .required)]
        [("a", Val.vint 1), ("b", Val.vint 2)]
      = cmpRepr [("a", Ty.tint .required), ("b", Ty.tint .required)]
        [("b", Val.vint 2), ("a", Val.vint 1)] := by
  constructor
  · intro schema f1 f2 h
    simp [cmpRepr, h]
  · simp [cmpRepr, lookupVal]

/-- Witness for C5 at two insertion orders of the same mapping. -/
theorem c5_cmp_repr_order_witness :
    cmpRepr [("x", Ty.tint .required)] [("x", Val.vint 1), ("y", Val.vint 2)]
      = cmpRepr [("x", Ty.tint .required)] [("y", Val.vint 2), ("x", Val.vint 1)] := by
  apply c5_cmp_repr_order.1
  intro n
  by_cases h1 : "x" = n
  · subst h1
    have h2 : ¬ ("y" = "x") := by decide
    simp [lookupVal, h2]
  · by_cases h2 : "y" = n
    · subst h2
      simp [lookupVal, h1]
    · simp [lookupVal, h1, h2]

/-- C6: Corrected — construction establishes the record invariant (a field
may be absent only when its policy is `MISSING` or it has some other
default), `__setattr__` preserves it, and reading an absent field raises
`AttributeError` (`Field not set`) rather than returning `None`; but
`__delattr__` does NOT preserve it: deletion removes a present field
regardless of its descriptor's policy, so deleting a required field breaks
the invariant (see the counterexample). -/
theorem c6_invariant :
    (∀ (clock : DT) (schema : List (String × Ty)) (kwargs fs : List (String × Val)),
       namesNodup (schema.map Prod.fst) = true →
       structNew clock schema kwargs = .ok fs → invariantB schema fs = true) ∧
    (∀ (schema : List (String × Ty)) (fs fs2 : List (String × Val)) (n : String) (v : Val),
       invariantB schema fs = true → structSet schema fs n v = .ok fs2 →
       invariantB schema fs2 = true) ∧
    (∀ (schema : List (String × Ty)) (fs : List (String × Val)) (n : String) (ty : Ty),
       (n, ty) ∈ schema → lookupVal fs n = Option.none →
       structGet schema fs n = .error .fieldNotSet) := by
  refine ⟨?_, ?_, ?_⟩
  · intro clock schema kwargs fs hnod h
    exact structNew_establishes_invariant hnod h
  · intro schema fs fs2 n v hinv hset
    rw [structSet] at hset
    cases hlt : lookupTy schema n with
    | none => rw [hlt] at hset; cases hset
    | some ty =>
      rw [hlt] at hset
      cases hset
      rw [invariantB, List.all_eq_true] at hinv ⊢
      intro p hp
      have hb := hinv p hp
      rw [lookupVal_setField]
      by_cases hc : n = p.1
      · rw [if_pos hc]
        simp
      · rw [if_neg hc]
        exact hb
  · intro schema fs n ty hmem hlv
    obtain ⟨ty2, hlt⟩ := lookupTy_isSome_of_mem hmem
    rw [structGet, hlt]
    dsimp only
    rw [hlv]

/-- Witness for C6: a construction establishing the invariant and a read of
an absent required field. -/
theorem c6_invariant_witness :
    invariantB [("a", Ty.tint (.val (.vint 0)))] [("a", Val.vint 0)] = true ∧
    structGet [("a", Ty.tint (.val (.vint 0)))] [] "a" = .error .fieldNotSet := by
  constructor
  · exact c6_invariant.1 clock0 _ [] _ (by decide)
      (by simp [structNew, checkKwargs, fillDefaults, default_value, dfltOf])
  · exact c6_invariant.2.2 _ [] "a" (Ty.tint (.val (.vint 0))) (by simp) (by simp [lookupVal])

/-- Counterexample for C6 as stated: `__delattr__` deletes a required field,
leaving a record that violates the invariant. -/
theorem c6_counterexample :
    invariantB [("a", Ty.tint .required)] [("a", Val.vint 1)] = true ∧
    structDel [("a", Ty.tint .required)] [("a", Val.vint 1)] "a" = .ok [] ∧
    invariantB [("a", Ty.tint .required)] [] = false := by
  refine ⟨?_, ?_, ?_⟩ <;>
    simp [invariantB, lookupVal, dfltOf, Dflt.isRequired, structDel, lookupTy, removeField]

/-- C7: Confirmed — a `Tuple` descriptor parametrized with N parameter
descriptors rejects, with the arity error, every tuple value whose length
differs from N under `to_jsony`, `from_jsony` and `apply`; the
unparametrized `Tuple` accepts tuples of any length, treating every element
as `Any`. -/
theorem c7_tuple_arity :
    (∀ (ps : List Ty) (d : Dflt) (tgt : Target) (clock : DT) (xs : List Val)
       (f : Ty → Val → Val), xs.length ≠ ps.length →
       toJsony (.ttuple (some ps) d) tgt (.vtuple xs) = .error .arity ∧
       fromJsony clock (.ttuple (some ps) d) tgt (.vtuple xs) = .error .arity ∧
       applyV clock (.ttuple (some ps) d) f (.vtuple xs) = .error .arity) ∧
    (∀ (d : Dflt) (tgt : Target) (clock : DT) (xs : List Val) (f : Ty → Val → Val),
       toJsony (.ttuple Option.none d) tgt (.vtuple xs) = .ok (.vlist xs) ∧
       fromJsony clock (.ttuple Option.none d) tgt (.vtuple xs) = .ok (.vtuple xs) ∧
       applyV clock (.ttuple Option.none d) f (.vtuple xs)
         = .ok (f (.ttuple Option.none d) (.vtuple (xs.map (f anyTy))))) := by
  constructor
  · intro ps d tgt clock xs f hlen
    refine ⟨?_, ?_, ?_⟩
    · rw [toJsony.eq_def]
      dsimp only [tupleElems]
      rw [if_neg hlen]
    · rw [fromJsony.eq_def]
      dsimp only [tupleElems]
      rw [if_neg hlen]
    · rw [applyV.eq_def]
      dsimp only [tupleElems]
      rw [if_neg hlen]
  · intro d tgt clock xs f
    refine ⟨?_, ?_, ?_⟩
    · rw [toJsony.eq_def]
      dsimp only [tupleElems]
      rw [anyMapList_id]
    · rw [fromJsony.eq_def]
      dsimp only [tupleElems]
      rw [anyMapList_id]
    · rw [applyV.eq_def]
      dsimp only [tupleElems]

/-- Witness for C7: a 2-parameter tuple rejecting a 3-element value, the
unparametrized tuple accepting it. -/
theorem c7_tuple_arity_witness :
    toJsony (.ttuple (some [Ty.tint .required, Ty.tstr .required]) .required) .json
      (.vtuple [Val.vint 1, Val.vint 2, Val.vint 3]) = .error .arity ∧
    toJsony (.ttuple Option.none .required) .json
      (.vtuple [Val.vint 1, Val.vint 2, Val.vint 3])
      = .ok (.vlist [Val.vint 1, Val.vint 2, Val.vint 3]) :=
  ⟨(c7_tuple_arity.1 [Ty.tint .required, Ty.tstr .required] .required .json clock0
      [Val.vint 1, Val.vint 2, Val.vint 3] (fun _ v => v) (by simp)).1,
   (c7_tuple_arity.2 .required .json clock0 [Val.vint 1, Val.vint 2, Val.vint 3]
      (fun _ v => v)).1⟩

/-- C8: Corrected — while unresolved, every forwarded operation (`klass`,
`default_value`, the encode, decode and apply forwards, `new`) fails (the
modelled `UnresolvedReferenceError`), and the display name falls back to the
declared debug name; after `resolve(D)`, `klass`, `to_jsony`, `from_jsony`
and `new` behave exactly as `D`'s, but `default_value` consults `D` with the
PLACEHOLDER's own `_default` attribute substituted
(`self._type.default(self._default)`), so it diverges from `D.default_value`
whenever the two default policies differ (see the counterexample). -/
theorem c8_placeholder :
    (∀ (clock : DT) (p : Ph) (tgt : Target) (v : Val) (f : Ty → Val → Val),
       p.resolvedTy = Option.none →
       phKlass p = .error .unresolvedRef ∧
       (v ≠ .none → phToJsony p tgt v = .error .unresolvedRef) ∧
       (v ≠ .none → phFromJsony clock p tgt v = .error .unresolvedRef) ∧
       phApply clock p f v = .error .unresolvedRef ∧
       phDefaultValue clock p = .error .unresolvedRef ∧
       phNew clock p = .error .unresolvedRef ∧
       phName p = p.debugName) ∧
    (∀ (clock : DT) (p : Ph) (ty : Ty) (tgt : Target) (v : Val),
       p.resolvedTy = some ty →
       phKlass p = .ok (tyKlass ty) ∧
       phToJsony p tgt v = toJsony ty tgt v ∧
       phFromJsony clock p tgt v = fromJsony clock ty tgt v ∧
       phNew clock p = tyNew clock ty ∧
       phDefaultValue clock p = default_value clock (withDflt ty p.phDflt)) := by
  constructor
  · intro clock p tgt v f hres
    refine ⟨?_, ?_, ?_, ?_, ?_, ?_, rfl⟩
    · rw [phKlass, hres]
    · intro hv
      cases v
      · exact absurd rfl hv
      all_goals simp [phToJsony, hres]
    · intro hv
      cases v
      · exact absurd rfl hv
      all_goals simp [phFromJsony, hres]
    · rw [phApply, hres]
    · rw [phDefaultValue, hres]
    · rw [phNew, hres]
  · intro clock p ty tgt v hres
    refine ⟨?_, ?_, ?_, ?_, ?_⟩
    · rw [phKlass, hres]
      dsimp only
      rw [tyKlass_withDflt]
    · cases v
      · rw [toJsony_none]
        simp [phToJsony]
      all_goals simp [phToJsony, hres, toJsony_withDflt]
    · cases v
      · rw [fromJsony_none]
        simp [phFromJsony]
      all_goals simp [phFromJsony, hres, fromJsony_withDflt]
    · rw [phNew, hres]
      dsimp only
      rw [tyNew_withDflt]
    · rw [phDefaultValue, hres]

/-- Witness for C8: unresolved encode fails and the name falls back; after
resolution the encode agrees with the target descriptor's. -/
theorem c8_placeholder_witness :
    phToJsony (mkPlaceholder "T") .json (.vint 1) = .error .unresolvedRef ∧
    phName (mkPlaceholder "T") = "T" ∧
    phToJsony (phResolve (mkPlaceholder "T") (Ty.tint (.val (.vint 0)))) .json (.vint 1)
      = toJsony (Ty.tint (.val (.vint 0))) .json (.vint 1) := by
  refine ⟨?_, ?_, ?_⟩
  · exact (c8_placeholder.1 clock0 (mkPlaceholder "T") .json (.vint 1) (fun _ v => v) rfl).2.1
      (fun h => Val.noConfusion h)
  · exact (c8_placeholder.1 clock0 (mkPlaceholder "T") .json (.vint 1)
      (fun _ v => v) rfl).2.2.2.2.2.2
  · exact (c8_placeholder.2 clock0 (phResolve (mkPlaceholder "T") (Ty.tint (.val (.vint 0))))
      (Ty.tint (.val (.vint 0))) .json (.vint 1) rfl).2.1

/-- Counterexample for C8 as stated: after `resolve(D)` with `D` an `Int`
defaulting to `0`, `default_value` errors (the placeholder's own `_default`
is still `REQUIRED`) while `D.default_value()` is `0`. -/
theorem c8_counterexample :
    phDefaultValue clock0 (phResolve (mkPlaceholder "T") (Ty.tint (.val (.vint 0))))
      = .error .policy ∧
    default_value clock0 (Ty.tint (.val (.vint 0))) = .ok (.vint 0) := by
  constructor
  · simp [phDefaultValue, phResolve, mkPlaceholder, withDflt, default_value, dfltOf]
  · simp [default_value, dfltOf]

/-- C9: Code bug — deriving the reflective descriptor from
`f(x : int, *rest, **opts)` does produce the claimed schema (`x : Int`,
`rest : List[Any]` and `opts : Dict[Str, Any]` with the empty-constructible
policy, with the variadic names recorded), but reconstructing from the
record with `x = 1`, `rest = [2, 3]`, `opts` holding `k = 4` does not invoke
`f(1, 2, 3, k=4)`: `get_args_kwargs` pops only the variadic fields, so `x`
stays a keyword argument while `rest` is spread positionally, and the call
binds `2` to `x` positionally before hitting the keyword `x = 1` —
`TypeError`, got multiple values for argument `x`. -/
theorem c9_reflective_reconstruct :
    init_schema [⟨"self", .posOrKw, Option.none, Option.none⟩,
        ⟨"x", .posOrKw, some .int, Option.none⟩,
        ⟨"rest", .varPos, Option.none, Option.none⟩,
        ⟨"opts", .varKw, Option.none, Option.none⟩]
      = .ok ⟨[("x", Ty.tint .required),
              ("rest", Ty.tlist (some (Ty.tany .required)) .empty),
              ("opts", Ty.tdict (some (Ty.tstr .required, Ty.tany .required)) .empty)],
             some "rest", some "opts", false⟩ ∧
    convertCall ⟨[("x", Ty.tint .required),
              ("rest", Ty.tlist (some (Ty.tany .required)) .empty),
              ("opts", Ty.tdict (some (Ty.tstr .required, Ty.tany .required)) .empty)],
             some "rest", some "opts", false⟩
      [⟨"x", .posOrKw, some .int, Option.none⟩,
       ⟨"rest", .varPos, Option.none, Option.none⟩,
       ⟨"opts", .varKw, Option.none, Option.none⟩]
      [("x", Val.vint 1), ("rest", Val.vlist [Val.vint 2, Val.vint 3]),
       ("opts", Val.vdict [(Val.vstr "k", Val.vint 4)])]
      = .error (.multipleValues "x") := by
  constructor
  · rfl
  · rfl

/-- C10: Confirmed — Python `bool` is a subclass of `int`, so
`validate_class` accepts boolean values for the `Int` descriptor: `to_jsony`
and `from_jsony` on `Int` return a boolean unchanged, for both targets,
rather than failing with a type mismatch. -/
theorem c10_int_accepts_bool :
    ∀ (d : Dflt) (tgt : Target) (clock : DT) (b : Bool),
      isinstance (.vbool b) .int = true ∧
      toJsony (Ty.tint d) tgt (.vbool b) = .ok (.vbool b) ∧
      fromJsony clock (Ty.tint d) tgt (.vbool b) = .ok (.vbool b) := by
  intro d tgt clock b
  refine ⟨rfl, ?_, ?_⟩
  · rw [toJsony.eq_def]
    rfl
  · rw [fromJsony.eq_def]
    rfl
